import Mathlib

/-!
Verification of the `MemoryBank` in-memory key/value cache
(`src/unnamed/part_001`, class `MemoryBank`).

The JavaScript class is embedded shallowly:
* a JS `Map` becomes an insertion-ordered association list
  (`Map.set` on an existing key keeps its position, a fresh key is
  appended, `Map.delete` removes the pair, iteration is list order);
* `Date.now()` becomes an explicit `now : Int` argument threaded through
  every operation that reads the clock;
* `this.emit(...)` becomes appending an `Event` to an event log;
* numeric truthiness is modelled explicitly: a JS test `x` on a number
  is false exactly for `0` (and for `null`, modelled as `Option.none`).
-/

namespace MemBank

abbrev Key := String

/-- Association-list model of a JS `Map`: insertion ordered, keys unique
as long as entries are only created through `alSet`. -/
abbrev AList (α : Type) := List (Key × α)

/-- JS `map.has(key)`. -/
def alHas {α : Type} (m : AList α) (k : Key) : Bool :=
  m.any (fun p => p.1 == k)

/-- JS `map.get(key)` (`none` models `undefined`). -/
def alGet {α : Type} (m : AList α) (k : Key) : Option α :=
  (m.find? (fun p => p.1 == k)).map Prod.snd

/-- Overwrite helper: replace the pair whose key is `k`. -/
def alOw {α : Type} (k : Key) (v : α) (p : Key × α) : Key × α :=
  if p.1 == k then (k, v) else p

/-- JS `map.set(key, v)`: overwrite in place if present, append if fresh. -/
def alSet {α : Type} (m : AList α) (k : Key) (v : α) : AList α :=
  if alHas m k then m.map (alOw k v) else m ++ [(k, v)]

/-- JS `map.delete(key)`. -/
def alDelete {α : Type} (m : AList α) (k : Key) : AList α :=
  m.filter (fun p => !(p.1 == k))

/-- JS `map.size`. -/
def alSize {α : Type} (m : AList α) : Nat := m.length

/-- Keys of the map, in iteration order. -/
def keysOf {α : Type} (m : AList α) : List Key := m.map Prod.fst

/-- Per-key metadata record (`this.metadata` entries, lines 566-572). -/
structure Metadata where
  createdAt : Int
  ttl : Int
  expiresAt : Option Int
  accessCount : Nat
  lastAccess : Int
  deriving Repr, DecidableEq

/-- Running counters (`this.stats`, lines 519-527). -/
structure Stats where
  totalOperations : Nat
  reads : Nat
  writes : Nat
  deletes : Nat
  evictions : Nat
  hits : Nat
  misses : Nat
  deriving Repr, DecidableEq

def Stats.zero : Stats :=
  { totalOperations := 0, reads := 0, writes := 0, deletes := 0,
    evictions := 0, hits := 0, misses := 0 }

/-- Resolved configuration (`this.options`, lines 504-510). -/
structure Options where
  maxSize : Int
  ttl : Int
  autoCleanup : Bool
  cleanupInterval : Int
  deriving Repr, DecidableEq

/-- Events published through `this.emit`.  Payload fields kept are the
ones the spec's event-shape table lists. -/
inductive Event where
  | initialized (maxSize ttl : Int) (autoCleanup : Bool)
  | setEv (key : Key) (size : Nat)
  | hit (key : Key) (accessCount : Nat)
  | miss (key : Key) (reason : Option String)
  | deleteEv (key : Key) (size : Nat)
  | clearEv (count : Nat)
  | eviction (key : Key) (reason : String)
  | cleanup (expiredCount : Nat)
  | ttlUpdated (key : Key) (ttl : Int)
  | errorEv
  | closedEv
  deriving Repr, DecidableEq

/-- State of one `MemoryBank` instance.  `cleanupTimer` records whether
the recurring sweep task is scheduled. -/
structure MemoryBank (V : Type) where
  options : Options
  data : AList V
  metadata : AList Metadata
  stats : Stats
  events : List Event
  cleanupTimer : Bool

namespace MemoryBank

variable {V : Type}

/-- JS `this.emit(ev)`: append to the log. -/
def emit (s : MemoryBank V) (e : Event) : MemoryBank V :=
  { s with events := s.events ++ [e] }

/-- Counter bump at the top of `set` (lines 550-551). -/
def bumpWrite (s : MemoryBank V) : MemoryBank V :=
  { s with stats := { s.stats with totalOperations := s.stats.totalOperations + 1
                                   writes := s.stats.writes + 1 } }

/-- Counter bump at the top of `get` (lines 590-591). -/
def bumpRead (s : MemoryBank V) : MemoryBank V :=
  { s with stats := { s.stats with totalOperations := s.stats.totalOperations + 1
                                   reads := s.stats.reads + 1 } }

/-- Constructor (lines 501-539).  In the source the options object is
built as `{ maxSize: options.maxSize || 1000, ..., ...options }`: the
trailing spread re-applies every caller-supplied field, so a
caller-supplied value wins even when it is falsy (e.g. `maxSize: 0`
survives the `|| 1000` fallback).  Net effect: each field is the
caller's value when supplied, else the default. -/
def mkBank (maxSize ttl : Option Int) (autoCleanup : Option Bool)
    (cleanupInterval : Option Int) : MemoryBank V :=
  let opts : Options :=
    { maxSize := maxSize.getD 1000
      ttl := ttl.getD 0
      autoCleanup := autoCleanup.getD true
      cleanupInterval := cleanupInterval.getD 60000 }
  { options := opts
    data := []
    metadata := []
    stats := Stats.zero
    events := [Event.initialized opts.maxSize opts.ttl opts.autoCleanup]
    cleanupTimer := opts.autoCleanup && opts.ttl > 0 }

/-- JS expiry test `metadata.expiresAt && now > metadata.expiresAt`
(lines 603, 636, 732, 835).  `expiresAt` of `null` is falsy, and so is
the number `0`. -/
def isExpired (md : Metadata) (now : Int) : Bool :=
  match md.expiresAt with
  | none => false
  | some e => e != 0 && now > e

/-- Public `delete` (lines 649-668): removes value and metadata,
increments `deletes` and `totalOperations`, emits a delete event. -/
def delete (s : MemoryBank V) (k : Key) : Bool × MemoryBank V :=
  if alHas s.data k then
    let s1 : MemoryBank V :=
      { s with data := alDelete s.data k
               metadata := alDelete s.metadata k
               stats := { s.stats with deletes := s.stats.deletes + 1
                                       totalOperations := s.stats.totalOperations + 1 } }
    (true, emit s1 (Event.deleteEv k (alSize s1.data)))
  else (false, s)

/-- Internal `_evictOldest` (lines 853-869): linear scan for the
strictly smallest `createdAt` (ties keep the first entry seen), then
`if (oldestKey)` — a JS truthiness test, false for `null` (empty scan)
and for the empty-string key — guards the delete, the `evictions`
bump and the eviction event. -/
def oldestStep (acc : Option (Key × Metadata)) (p : Key × Metadata) :
    Option (Key × Metadata) :=
  match acc with
  | none => some p
  | some q => if p.2.createdAt < q.2.createdAt then some p else acc

def findOldest (m : AList Metadata) : Option Key :=
  (m.foldl oldestStep none).map Prod.fst

def evictOldest (s : MemoryBank V) : MemoryBank V :=
  match findOldest s.metadata with
  | none => s
  | some oldestKey =>
    if oldestKey = "" then s
    else
      let s1 := (delete s oldestKey).2
      let s2 : MemoryBank V :=
        { s1 with stats := { s1.stats with evictions := s1.stats.evictions + 1 } }
      emit s2 (Event.eviction oldestKey "size_limit")

/-- Metadata record written by `set` (lines 566-572): `createdAt = now`,
`expiresAt = now + effectiveTtl` when `effectiveTtl > 0`, else `null`. -/
def freshMeta (now : Int) (effectiveTtl : Int) : Metadata :=
  { createdAt := now
    ttl := effectiveTtl
    expiresAt := if effectiveTtl > 0 then some (now + effectiveTtl) else none
    accessCount := 0
    lastAccess := now }

/-- Public `set` (lines 548-581).  The try body never throws in this
model, so the `catch` branch is unreachable and `set` returns `true`. -/
def set (s : MemoryBank V) (now : Int) (k : Key) (v : V) (ttl : Option Int) :
    Bool × MemoryBank V :=
  let s1 := bumpWrite s
  let s2 :=
    if (alSize s1.data : Int) ≥ s1.options.maxSize ∧ ¬ alHas s1.data k then
      evictOldest s1
    else s1
  let effectiveTtl := ttl.getD s2.options.ttl
  let s3 : MemoryBank V :=
    { s2 with data := alSet s2.data k v
              metadata := alSet s2.metadata k (freshMeta now effectiveTtl) }
  (true, emit s3 (Event.setEv k (alSize s3.data)))

/-- Public `get` (lines 588-623).  When the key is in `data` but has no
metadata record, the JS dereference `metadata.expiresAt` throws and the
`catch` emits an error event and returns `undefined`; that branch is
modelled explicitly (it is unreachable from well-formed states). -/
def get (s : MemoryBank V) (now : Int) (k : Key) : Option V × MemoryBank V :=
  let s1 := bumpRead s
  if ¬ alHas s1.data k then
    let s2 : MemoryBank V :=
      { s1 with stats := { s1.stats with misses := s1.stats.misses + 1 } }
    (none, emit s2 (Event.miss k none))
  else
    match alGet s1.metadata k with
    | none => (none, emit s1 Event.errorEv)
    | some md =>
      if isExpired md now then
        let s2 := (delete s1 k).2
        let s3 : MemoryBank V :=
          { s2 with stats := { s2.stats with misses := s2.stats.misses + 1 } }
        (none, emit s3 (Event.miss k (some "expired")))
      else
        let md1 : Metadata :=
          { md with accessCount := md.accessCount + 1, lastAccess := now }
        let s2 : MemoryBank V :=
          { s1 with metadata := alSet s1.metadata k md1
                    stats := { s1.stats with hits := s1.stats.hits + 1 } }
        (alGet s2.data k, emit s2 (Event.hit k md1.accessCount))

/-- Public `has` (lines 630-642).  No try/catch here: a missing
metadata record would make the JS throw to the caller; that outcome is
modelled as result `none` with the state unchanged. -/
def has (s : MemoryBank V) (now : Int) (k : Key) : Option Bool × MemoryBank V :=
  if ¬ alHas s.data k then (some false, s)
  else
    match alGet s.metadata k with
    | none => (none, s)
    | some md =>
      if isExpired md now then (some false, (delete s k).2)
      else (some true, s)

/-- Public `clear` (lines 673-682). -/
def clear (s : MemoryBank V) : Nat × MemoryBank V :=
  let count := alSize s.data
  let s1 : MemoryBank V := { s with data := [], metadata := [] }
  (count, emit s1 (Event.clearEv count))

/-- Loop body of `_cleanupExpired` (lines 840-843): `this.delete(key)`
followed by `this.stats.evictions++`. -/
def cleanupStep (acc : MemoryBank V) (k : Key) : MemoryBank V :=
  let acc1 := (delete acc k).2
  { acc1 with stats := { acc1.stats with evictions := acc1.stats.evictions + 1 } }

def cleanupLoop (s : MemoryBank V) (l : List Key) : MemoryBank V :=
  l.foldl cleanupStep s

/-- Keys collected by the sweep scan (lines 832-838): every key whose
metadata passes the expiry test, in iteration order. -/
def expiredKeysOf (s : MemoryBank V) (now : Int) : List Key :=
  keysOf (s.metadata.filter (fun p => isExpired p.2 now))

/-- Internal `_cleanupExpired` (lines 826-848): a no-op unless the
store-wide default TTL is positive; otherwise collects every expired
key, deletes each (through public `delete`) bumping `evictions` per
key, and emits one cleanup event when anything was removed. -/
def cleanupExpired (s : MemoryBank V) (now : Int) : MemoryBank V :=
  if s.options.ttl ≤ 0 then s
  else
    let expiredKeys := expiredKeysOf s now
    let s1 := cleanupLoop s expiredKeys
    if expiredKeys.length > 0 then emit s1 (Event.cleanup expiredKeys.length) else s1

/-- Public `keys` (lines 688-691): sweep, then snapshot the key list. -/
def keys (s : MemoryBank V) (now : Int) : List Key × MemoryBank V :=
  let s1 := cleanupExpired s now
  (keysOf s1.data, s1)

/-- Public `values` (lines 697-700). -/
def values (s : MemoryBank V) (now : Int) : List V × MemoryBank V :=
  let s1 := cleanupExpired s now
  (s1.data.map Prod.snd, s1)

/-- Public `entries` (lines 706-721): sweep, then `{key, value,
metadata}` triples for every data entry that still has metadata. -/
def entries (s : MemoryBank V) (now : Int) :
    List (Key × V × Metadata) × MemoryBank V :=
  let s1 := cleanupExpired s now
  (s1.data.filterMap
    (fun p => (alGet s1.metadata p.1).map (fun md => (p.1, p.2, md))), s1)

/-- Snapshot returned by `getStats` (lines 727-745). -/
structure StatsView where
  totalOperations : Nat
  reads : Nat
  writes : Nat
  deletes : Nat
  evictions : Nat
  hits : Nat
  misses : Nat
  size : Nat
  maxSize : Int
  expiredCount : Nat
  hitRate : ℚ
  deriving Repr, DecidableEq

/-- Public `getStats` (lines 727-745); read-only.  JS number division
is modelled over `ℚ`. -/
def getStats (s : MemoryBank V) (now : Int) : StatsView :=
  { totalOperations := s.stats.totalOperations
    reads := s.stats.reads
    writes := s.stats.writes
    deletes := s.stats.deletes
    evictions := s.stats.evictions
    hits := s.stats.hits
    misses := s.stats.misses
    size := alSize s.data
    maxSize := s.options.maxSize
    expiredCount := (s.metadata.filter (fun p => isExpired p.2 now)).length
    hitRate :=
      if s.stats.totalOperations > 0 then
        ((s.stats.hits : ℚ) / (s.stats.totalOperations : ℚ)) * 100
      else 0 }

/-- Public `getInfo` (lines 752-768); read-only.  The `isExpired` flag
uses the same truthiness test `metadata.expiresAt ? ... : false`. -/
def getInfo (s : MemoryBank V) (now : Int) : Key → Option (Key × V × Metadata × Bool) :=
  fun k =>
    if ¬ alHas s.data k then none
    else
      match alGet s.metadata k, alGet s.data k with
      | some md, some v => some (k, v, md, isExpired md now)
      | _, _ => none

/-- Public `setTTL` (lines 776-789). -/
def setTTL (s : MemoryBank V) (now : Int) (k : Key) (ttl : Int) :
    Bool × MemoryBank V :=
  match alGet s.metadata k with
  | none => (false, s)
  | some md =>
    let md1 : Metadata :=
      { md with ttl := ttl
                expiresAt := if ttl > 0 then some (now + ttl) else none }
    let s1 : MemoryBank V := { s with metadata := alSet s.metadata k md1 }
    (true, emit s1 (Event.ttlUpdated k ttl))

/-- Public `getTTL` (lines 796-809); read-only.  `!metadata.expiresAt`
is again numeric truthiness: both `null` and `0` yield `null`. -/
def getTTL (s : MemoryBank V) (now : Int) (k : Key) : Option Int :=
  match alGet s.metadata k with
  | none => none
  | some md =>
    match md.expiresAt with
    | none => none
    | some e =>
      if e = 0 then none
      else if e - now > 0 then some (e - now) else some 0

/-- Public `close` (lines 814-821): stop the timer, emit closed. -/
def close (s : MemoryBank V) : MemoryBank V :=
  emit { s with cleanupTimer := false } Event.closedEv

end MemoryBank

/-- Well-formedness: the value map has duplicate-free keys and the
metadata map lists exactly the same keys in the same order.  This holds
for every bank built by the constructor and is preserved by every
operation (theorems below). -/
def WF {V : Type} (s : MemoryBank V) : Prop :=
  (keysOf s.data).Nodup ∧ keysOf s.data = keysOf s.metadata

/-- Every `expiresAt` the source ever writes is `Date.now() + ttl` with
`ttl > 0`, hence positive on a non-negative clock; `expOk` captures
that for one record. -/
def expOk (md : Metadata) : Bool :=
  match md.expiresAt with
  | none => true
  | some e => decide (0 < e)

/-- All metadata records have positive (or absent) expiry instants. -/
def PosExp {V : Type} (s : MemoryBank V) : Prop :=
  ∀ p ∈ s.metadata, expOk p.2 = true

/-- No metadata record carries an expiry instant at all. -/
def NoExpiry {V : Type} (s : MemoryBank V) : Prop :=
  ∀ p ∈ s.metadata, p.2.expiresAt = none

/-- Record `md` is live at instant `now` in the spec's sense: its
expiry instant, if any, has not passed. -/
def liveAt (md : Metadata) (now : Int) : Prop :=
  ∀ e, md.expiresAt = some e → now ≤ e

/-- Inductive invariant for the capacity claim: well-formed, no
empty-string key stored, and within the bound `max maxSize 1`. -/
def CapInv {V : Type} (s : MemoryBank V) : Prop :=
  WF s ∧ "" ∉ keysOf s.data ∧ (alSize s.data : Int) ≤ max s.options.maxSize 1

/-- Run a sequence of `set` calls; each element is
`(now, key, value, ttl argument)`. -/
def runSets {V : Type} (s : MemoryBank V)
    (l : List (Int × Key × V × Option Int)) : MemoryBank V :=
  l.foldl (fun acc q => (MemoryBank.set acc q.1 q.2.1 q.2.2.1 q.2.2.2).2) s

/-- Run a sequence of `get` calls; each element is `(now, key)`. -/
def runGets {V : Type} (s : MemoryBank V) (l : List (Int × Key)) : MemoryBank V :=
  l.foldl (fun acc q => (MemoryBank.get acc q.1 q.2).2) s

/-- One public operation of the interface (plus the background sweep),
with its arguments. -/
inductive Op (V : Type) where
  | set (k : Key) (v : V) (ttl : Option Int)
  | get (k : Key)
  | has (k : Key)
  | delete (k : Key)
  | clear
  | keys
  | values
  | entries
  | setTTL (k : Key) (ttl : Int)
  | getTTL (k : Key)
  | getInfo (k : Key)
  | getStats
  | close
  | sweep

/-- State after one public operation.  `getTTL`, `getInfo` and
`getStats` are read-only in the source and leave the state unchanged. -/
def applyOp {V : Type} (now : Int) (s : MemoryBank V) : Op V → MemoryBank V
  | .set k v ttl => (MemoryBank.set s now k v ttl).2
  | .get k => (MemoryBank.get s now k).2
  | .has k => (MemoryBank.has s now k).2
  | .delete k => (MemoryBank.delete s k).2
  | .clear => (MemoryBank.clear s).2
  | .keys => (MemoryBank.keys s now).2
  | .values => (MemoryBank.values s now).2
  | .entries => (MemoryBank.entries s now).2
  | .setTTL k ttl => (MemoryBank.setTTL s now k ttl).2
  | .getTTL _ => s
  | .getInfo _ => s
  | .getStats => s
  | .close => MemoryBank.close s
  | .sweep => MemoryBank.cleanupExpired s now


/-! Association-list lemmas. -/

theorem alHas_cons {α : Type} (p : Key × α) (m : AList α) (k : Key) :
    alHas (p :: m) k = (p.1 == k || alHas m k) := rfl

theorem alGet_cons {α : Type} (p : Key × α) (m : AList α) (k : Key) :
    alGet (p :: m) k = if p.1 == k then some p.2 else alGet m k := by
  rw [alGet, List.find?_cons]
  cases hp : (p.1 == k) with
  | true => simp [hp]
  | false => simp [hp, alGet]

theorem alHas_eq_mem {α : Type} (m : AList α) (k : Key) :
    alHas m k = true ↔ k ∈ keysOf m := by
  induction m with
  | nil => simp [alHas, keysOf]
  | cons p m ih =>
    simp only [alHas_cons, keysOf, List.map_cons, List.mem_cons, Bool.or_eq_true,
      beq_iff_eq, ← ih]
    tauto

theorem alGet_isSome_eq {α : Type} (m : AList α) (k : Key) :
    (alGet m k).isSome = alHas m k := by
  induction m with
  | nil => rfl
  | cons p m ih =>
    rw [alGet_cons, alHas_cons]
    by_cases h : p.1 == k <;> simp [h, ih]

theorem alGet_eq_none_of_not_has {α : Type} {m : AList α} {k : Key}
    (h : alHas m k = false) : alGet m k = none := by
  have hs := alGet_isSome_eq m k
  rw [h] at hs
  cases hg : alGet m k with
  | none => rfl
  | some v => rw [hg] at hs; simp at hs

theorem alGet_mem {α : Type} {m : AList α} {k : Key} {v : α}
    (h : alGet m k = some v) : (k, v) ∈ m := by
  induction m with
  | nil => simp [alGet] at h
  | cons p m ih =>
    rw [alGet_cons] at h
    by_cases hp : p.1 == k
    · rw [if_pos hp] at h
      have hv : p.2 = v := Option.some.inj h
      have hk : p.1 = k := by simpa using hp
      cases p with
    | mk a b =>
      simp only at hk hv
      subst hk
      subst hv
      exact List.mem_cons_self _ _
    · rw [if_neg hp] at h
      exact List.mem_cons_of_mem _ (ih h)

theorem fst_alOw {α : Type} (k : Key) (v : α) (p : Key × α) :
    (alOw k v p).1 = p.1 := by
  rw [alOw]
  by_cases h : p.1 == k
  · rw [if_pos h]
    simpa using (Eq.symm (by simpa using h))
  · rw [if_neg h]

theorem keysOf_map_alOw {α : Type} (m : AList α) (k : Key) (v : α) :
    keysOf (m.map (alOw k v)) = keysOf m := by
  induction m with
  | nil => rfl
  | cons p m ih =>
    simp only [keysOf, List.map_cons] at *
    rw [fst_alOw, ih]

theorem keysOf_alSet {α : Type} (m : AList α) (k : Key) (v : α) :
    keysOf (alSet m k v) = if alHas m k then keysOf m else keysOf m ++ [k] := by
  rw [alSet]
  by_cases h : alHas m k
  · rw [if_pos h, if_pos h, keysOf_map_alOw]
  · rw [if_neg h, if_neg h, keysOf, keysOf, List.map_append]
    rfl

theorem alSize_alSet {α : Type} (m : AList α) (k : Key) (v : α) :
    alSize (alSet m k v) = if alHas m k then alSize m else alSize m + 1 := by
  rw [alSet]
  by_cases h : alHas m k
  · rw [if_pos h, if_pos h, alSize, alSize, List.length_map]
  · rw [if_neg h, if_neg h, alSize, alSize, List.length_append]
    rfl

theorem alGet_map_alOw_self {α : Type} (m : AList α) (k : Key) (v : α)
    (h : alHas m k = true) : alGet (m.map (alOw k v)) k = some v := by
  induction m with
  | nil => simp [alHas] at h
  | cons p m ih =>
    rw [List.map_cons, alGet_cons]
    by_cases hp : p.1 == k
    · rw [alOw, if_pos hp]
      simp
    · rw [alOw, if_neg hp, if_neg hp]
      rw [alHas_cons, Bool.or_eq_true] at h
      rcases h with h | h
      · exact absurd h hp
      · exact ih h

theorem alGet_map_alOw_ne {α : Type} (m : AList α) (k k' : Key) (v : α)
    (h : k' ≠ k) : alGet (m.map (alOw k v)) k' = alGet m k' := by
  induction m with
  | nil => rfl
  | cons p m ih =>
    rw [List.map_cons, alGet_cons, alGet_cons]
    by_cases hp : p.1 == k
    · have hk : p.1 = k := by simpa using hp
      rw [alOw, if_pos hp]
      have h1 : ¬ ((k : Key) == k') = true := by simpa using fun e => h e.symm
      have h2 : ¬ (p.1 == k') = true := by simpa [hk] using fun e => h e.symm
      rw [if_neg h1, if_neg h2]
      exact ih
    · rw [alOw, if_neg hp]
      by_cases hp' : p.1 == k'
      · rw [if_pos hp', if_pos hp']
      · rw [if_neg hp', if_neg hp']
        exact ih

theorem alGet_alSet_self {α : Type} (m : AList α) (k : Key) (v : α) :
    alGet (alSet m k v) k = some v := by
  rw [alSet]
  by_cases h : alHas m k
  · rw [if_pos h]
    exact alGet_map_alOw_self m k v h
  · rw [if_neg h]
    induction m with
    | nil => simp [alGet]
    | cons p m ih =>
      rw [alHas_cons, Bool.or_eq_true] at h
      push_neg at h
      rw [List.cons_append, alGet_cons, if_neg h.1]
      exact ih h.2

theorem alGet_alSet_ne {α : Type} (m : AList α) (k k' : Key) (v : α)
    (h : k' ≠ k) : alGet (alSet m k v) k' = alGet m k' := by
  rw [alSet]
  by_cases hh : alHas m k
  · rw [if_pos hh]
    exact alGet_map_alOw_ne m k k' v h
  · rw [if_neg hh]
    induction m with
    | nil =>
      simp only [List.nil_append, alGet_cons]
      rw [if_neg (by simpa using fun e => h e.symm)]
    | cons p m ih =>
      rw [List.cons_append, alGet_cons, alGet_cons]
      by_cases hp : p.1 == k'
      · rw [if_pos hp, if_pos hp]
      · rw [if_neg hp, if_neg hp]
        rw [alHas_cons, Bool.or_eq_true] at hh
        push_neg at hh
        exact ih hh.2

theorem alHas_alSet_self {α : Type} (m : AList α) (k : Key) (v : α) :
    alHas (alSet m k v) k = true := by
  rw [← alGet_isSome_eq, alGet_alSet_self]
  rfl

theorem alHas_alSet_ne {α : Type} (m : AList α) (k k' : Key) (v : α)
    (h : k' ≠ k) : alHas (alSet m k v) k' = alHas m k' := by
  rw [← alGet_isSome_eq, ← alGet_isSome_eq, alGet_alSet_ne m k k' v h]

theorem map_fst_filter_ne {α : Type} (m : AList α) (k : Key) :
    (m.filter (fun p => !(p.1 == k))).map Prod.fst
      = (m.map Prod.fst).filter (fun x => !(x == k)) := by
  induction m with
  | nil => rfl
  | cons p m ih =>
    rw [List.filter_cons, List.map_cons, List.filter_cons]
    cases hp : (p.1 == k) with
    | true => simp [hp, ih]
    | false => simp [hp, ih]

theorem keysOf_alDelete {α : Type} (m : AList α) (k : Key) :
    keysOf (alDelete m k) = (keysOf m).filter (fun x => !(x == k)) := by
  rw [alDelete, keysOf, keysOf]
  exact map_fst_filter_ne m k

theorem mem_keysOf_alDelete {α : Type} (m : AList α) (k k' : Key) :
    k' ∈ keysOf (alDelete m k) ↔ k' ∈ keysOf m ∧ k' ≠ k := by
  rw [keysOf_alDelete, List.mem_filter]
  simp

theorem alHas_alDelete_self {α : Type} (m : AList α) (k : Key) :
    alHas (alDelete m k) k = false := by
  rw [← Bool.not_eq_true, alHas_eq_mem, mem_keysOf_alDelete]
  simp

theorem alHas_alDelete_ne {α : Type} (m : AList α) (k k' : Key) (h : k' ≠ k) :
    alHas (alDelete m k) k' = alHas m k' := by
  by_cases hm : alHas m k'
  · rw [hm]
    rw [alHas_eq_mem] at hm ⊢
    rw [mem_keysOf_alDelete]
    exact ⟨hm, h⟩
  · rw [Bool.not_eq_true] at hm
    rw [hm, ← Bool.not_eq_true, alHas_eq_mem, mem_keysOf_alDelete]
    rw [← Bool.not_eq_true, alHas_eq_mem] at hm
    tauto

theorem alGet_alDelete_ne {α : Type} (m : AList α) (k k' : Key) (h : k' ≠ k) :
    alGet (alDelete m k) k' = alGet m k' := by
  induction m with
  | nil => rfl
  | cons p m ih =>
    rw [alGet_cons, alDelete, List.filter_cons]
    by_cases hp : p.1 == k
    · have hk : p.1 = k := by simpa using hp
      have hh : ¬ (p.1 == k') = true := by simpa [hk] using fun e => h e.symm
      rw [if_neg hh, if_neg (by simp [hp])]
      exact ih
    · rw [Bool.not_eq_true] at hp
      rw [if_pos (by simp [hp]), alGet_cons]
      by_cases hp' : p.1 == k'
      · rw [if_pos hp', if_pos hp']
      · rw [if_neg hp', if_neg hp']
        exact ih

theorem nodup_keysOf_alSet {α : Type} (m : AList α) (k : Key) (v : α)
    (h : (keysOf m).Nodup) : (keysOf (alSet m k v)).Nodup := by
  rw [keysOf_alSet]
  by_cases hh : alHas m k
  · rwa [if_pos hh]
  · rw [if_neg hh]
    rw [List.nodup_append]
    refine ⟨h, List.nodup_singleton k, ?_⟩
    intro x hx
    simp only [List.mem_singleton]
    intro he
    subst he
    rw [← alHas_eq_mem] at hx
    rw [hx] at hh
    exact hh rfl

theorem nodup_keysOf_alDelete {α : Type} (m : AList α) (k : Key)
    (h : (keysOf m).Nodup) : (keysOf (alDelete m k)).Nodup := by
  rw [keysOf_alDelete]
  exact h.filter _

theorem alSize_eq_keysOf_length {α : Type} (m : AList α) :
    alSize m = (keysOf m).length := by
  simp [alSize, keysOf]

theorem filter_ne_length {l : List Key} {k : Key} (hn : l.Nodup) (hk : k ∈ l) :
    (l.filter (fun x => !(x == k))).length + 1 = l.length := by
  induction l with
  | nil => simp at hk
  | cons x l ih =>
    rw [List.filter_cons]
    rcases List.mem_cons.mp hk with he | hm
    · subst he
      rw [if_neg (by simp)]
      have hall : ∀ y ∈ l, (!(y == k)) = true := by
        intro y hy
        have : y ≠ k := by
          rintro rfl
          exact (List.nodup_cons.mp hn).1 hy
        simpa using this
      rw [List.filter_length_eq_length.mpr hall]
      simp
    · have hx : x ≠ k := by
        rintro rfl
        exact (List.nodup_cons.mp hn).1 hm
      rw [if_pos (by simpa using hx)]
      simp only [List.length_cons]
      rw [ih (List.nodup_cons.mp hn).2 hm]

theorem alSize_alDelete_of_has {α : Type} (m : AList α) (k : Key)
    (hn : (keysOf m).Nodup) (hk : alHas m k = true) :
    alSize (alDelete m k) + 1 = alSize m := by
  rw [alSize_eq_keysOf_length, alSize_eq_keysOf_length, keysOf_alDelete]
  rw [alHas_eq_mem] at hk
  exact filter_ne_length hn hk

/-! Lemmas on the `_evictOldest` scan. -/

theorem foldl_oldestStep_some {m : AList Metadata} :
    ∀ q : Key × Metadata, ∃ r, m.foldl MemoryBank.oldestStep (some q) = some r ∧
      (r = q ∨ r ∈ m) ∧ r.2.createdAt ≤ q.2.createdAt ∧
      ∀ p ∈ m, r.2.createdAt ≤ p.2.createdAt := by
  induction m with
  | nil =>
    intro q
    exact ⟨q, rfl, Or.inl rfl, le_refl _, by simp⟩
  | cons p m ih =>
    intro q
    rw [List.foldl_cons]
    by_cases hlt : p.2.createdAt < q.2.createdAt
    · have hstep : MemoryBank.oldestStep (some q) p = some p := by
        simp [MemoryBank.oldestStep, hlt]
      rw [hstep]
      obtain ⟨r, h1, h2, h3, h4⟩ := ih p
      refine ⟨r, h1, ?_, le_trans h3 (le_of_lt hlt), ?_⟩
      · rcases h2 with h | h
        · exact Or.inr (by simp [h])
        · exact Or.inr (List.mem_cons_of_mem _ h)
      · intro x hx
        rcases List.mem_cons.mp hx with he | hx
        · rw [he]; exact h3
        · exact h4 x hx
    · have hstep : MemoryBank.oldestStep (some q) p = some q := by
        simp [MemoryBank.oldestStep, hlt]
      rw [hstep]
      obtain ⟨r, h1, h2, h3, h4⟩ := ih q
      refine ⟨r, h1, ?_, h3, ?_⟩
      · rcases h2 with h | h
        · exact Or.inl h
        · exact Or.inr (List.mem_cons_of_mem _ h)
      · intro x hx
        rcases List.mem_cons.mp hx with he | hx
        · rw [he]; exact le_trans h3 (not_lt.mp hlt)
        · exact h4 x hx

theorem findOldest_eq_none {m : AList Metadata} :
    MemoryBank.findOldest m = none ↔ m = [] := by
  cases m with
  | nil => simp [MemoryBank.findOldest]
  | cons p m =>
    rw [MemoryBank.findOldest, List.foldl_cons]
    have hs : MemoryBank.oldestStep none p = some p := rfl
    rw [hs]
    obtain ⟨r, h1, _, _, _⟩ := foldl_oldestStep_some (m := m) p
    rw [h1]
    simp

theorem findOldest_spec {m : AList Metadata} {k : Key}
    (h : MemoryBank.findOldest m = some k) :
    ∃ md, (k, md) ∈ m ∧ ∀ p ∈ m, md.createdAt ≤ p.2.createdAt := by
  cases m with
  | nil => simp [MemoryBank.findOldest] at h
  | cons p m =>
    rw [MemoryBank.findOldest, List.foldl_cons] at h
    have hs : MemoryBank.oldestStep none p = some p := rfl
    rw [hs] at h
    obtain ⟨r, h1, h2, h3, h4⟩ := foldl_oldestStep_some (m := m) p
    rw [h1] at h
    simp only [Option.map_some', Option.some.injEq] at h
    subst h
    refine ⟨r.2, ?_, ?_⟩
    · have hr : r ∈ p :: m := by
        rcases h2 with he | h2
        · rw [he]; exact List.mem_cons_self _ _
        · exact List.mem_cons_of_mem _ h2
      simpa using hr
    · intro x hx
      rcases List.mem_cons.mp hx with he | hx
      · rw [he]; exact h3
      · exact h4 x hx

theorem findOldest_mem {m : AList Metadata} {k : Key}
    (h : MemoryBank.findOldest m = some k) : k ∈ keysOf m := by
  obtain ⟨md, hmem, _⟩ := findOldest_spec h
  rw [keysOf, List.mem_map]
  exact ⟨(k, md), hmem, rfl⟩

theorem alHas_congr {α β : Type} {m1 : AList α} {m2 : AList β}
    (h : keysOf m1 = keysOf m2) (k : Key) : alHas m1 k = alHas m2 k := by
  by_cases h1 : alHas m1 k = true
  · rw [h1]
    symm
    rw [alHas_eq_mem, ← h, ← alHas_eq_mem]
    exact h1
  · have h1' : alHas m1 k = false := by simpa using h1
    rw [h1']
    symm
    rw [← Bool.not_eq_true, alHas_eq_mem, ← h, ← alHas_eq_mem]
    simp [h1']

theorem alHas_of_alGet_some {α : Type} {m : AList α} {k : Key} {v : α}
    (h : alGet m k = some v) : alHas m k = true := by
  rw [← alGet_isSome_eq, h]
  rfl

/-! Preservation of well-formedness by every operation. -/

namespace MemoryBank

variable {V : Type}

theorem WF_emit {s : MemoryBank V} {e : Event} (h : WF s) : WF (emit s e) := h

theorem WF_delete {s : MemoryBank V} (k : Key) (h : WF s) : WF (delete s k).2 := by
  rw [delete]
  by_cases hk : alHas s.data k
  · rw [if_pos hk]
    refine ⟨?_, ?_⟩
    · dsimp only [emit]
      exact nodup_keysOf_alDelete _ _ h.1
    · dsimp only [emit]
      rw [keysOf_alDelete, keysOf_alDelete, h.2]
  · rw [if_neg hk]
    exact h

theorem WF_evictOldest {s : MemoryBank V} (h : WF s) : WF (evictOldest s) := by
  rw [evictOldest]
  cases hf : findOldest s.metadata with
  | none => exact h
  | some k =>
    dsimp only
    by_cases hk : k = ""
    · rw [if_pos hk]
      exact h
    · rw [if_neg hk]
      have hd := WF_delete k h
      refine ⟨?_, ?_⟩
      · dsimp only [emit]
        exact hd.1
      · dsimp only [emit]
        exact hd.2

theorem WF_set {s : MemoryBank V} (now : Int) (k : Key) (v : V)
    (ttl : Option Int) (h : WF s) : WF (set s now k v ttl).2 := by
  rw [set]
  dsimp only [bumpWrite]
  by_cases hc : (alSize s.data : Int) ≥ s.options.maxSize ∧ ¬ alHas s.data k
  · rw [if_pos hc]
    have h2 : WF (evictOldest
        { s with stats := { s.stats with
            totalOperations := s.stats.totalOperations + 1
            writes := s.stats.writes + 1 } }) := WF_evictOldest h
    refine ⟨?_, ?_⟩
    · dsimp only [emit]
      exact nodup_keysOf_alSet _ _ _ h2.1
    · dsimp only [emit]
      rw [keysOf_alSet, keysOf_alSet, h2.2, alHas_congr h2.2 k]
  · rw [if_neg hc]
    refine ⟨?_, ?_⟩
    · dsimp only [emit]
      exact nodup_keysOf_alSet _ _ _ h.1
    · dsimp only [emit]
      rw [keysOf_alSet, keysOf_alSet, h.2, alHas_congr h.2 k]

theorem WF_get {s : MemoryBank V} (now : Int) (k : Key) (h : WF s) :
    WF (get s now k).2 := by
  rw [get]
  dsimp only [bumpRead]
  by_cases hk : alHas s.data k
  · rw [if_neg (fun hc => hc hk)]
    cases hm : alGet s.metadata k with
    | none => exact h
    | some md =>
      dsimp only
      by_cases he : isExpired md now
      · rw [if_pos he]
        have hd := WF_delete (s :=
          { s with stats := { s.stats with
              totalOperations := s.stats.totalOperations + 1
              reads := s.stats.reads + 1 } }) k h
        refine ⟨?_, ?_⟩
        · dsimp only [emit]
          exact hd.1
        · dsimp only [emit]
          exact hd.2
      · rw [if_neg he]
        refine ⟨?_, ?_⟩
        · dsimp only [emit]
          exact h.1
        · dsimp only [emit]
          rw [keysOf_alSet, if_pos (alHas_of_alGet_some hm)]
          exact h.2
  · rw [if_pos hk]
    exact h

theorem WF_has {s : MemoryBank V} (now : Int) (k : Key) (h : WF s) :
    WF (has s now k).2 := by
  rw [has]
  by_cases hk : alHas s.data k
  · rw [if_neg (fun hc => hc hk)]
    cases hm : alGet s.metadata k with
    | none => exact h
    | some md =>
      dsimp only
      by_cases he : isExpired md now
      · rw [if_pos he]
        exact WF_delete k h
      · rw [if_neg he]
        exact h
  · rw [if_pos hk]
    exact h

theorem WF_clear {s : MemoryBank V} (_h : WF s) : WF (clear s).2 :=
  ⟨List.nodup_nil, rfl⟩

theorem WF_cleanupStep {s : MemoryBank V} (k : Key) (h : WF s) :
    WF (cleanupStep s k) := by
  rw [cleanupStep]
  have hd := WF_delete k h
  exact ⟨hd.1, hd.2⟩

theorem WF_cleanupLoop {s : MemoryBank V} (l : List Key) (h : WF s) :
    WF (cleanupLoop s l) := by
  induction l generalizing s with
  | nil => exact h
  | cons x l ih =>
    rw [cleanupLoop, List.foldl_cons]
    exact ih (WF_cleanupStep x h)

theorem WF_cleanupExpired {s : MemoryBank V} (now : Int) (h : WF s) :
    WF (cleanupExpired s now) := by
  rw [cleanupExpired]
  by_cases ht : s.options.ttl ≤ 0
  · rw [if_pos ht]
    exact h
  · rw [if_neg ht]
    dsimp only
    by_cases hlen : (expiredKeysOf s now).length > 0
    · rw [if_pos hlen]
      exact WF_emit (WF_cleanupLoop _ h)
    · rw [if_neg hlen]
      exact WF_cleanupLoop _ h

theorem WF_keys {s : MemoryBank V} (now : Int) (h : WF s) : WF (keys s now).2 :=
  WF_cleanupExpired now h

theorem WF_values {s : MemoryBank V} (now : Int) (h : WF s) : WF (values s now).2 :=
  WF_cleanupExpired now h

theorem WF_entries {s : MemoryBank V} (now : Int) (h : WF s) :
    WF (entries s now).2 :=
  WF_cleanupExpired now h

theorem WF_setTTL {s : MemoryBank V} (now : Int) (k : Key) (ttl : Int)
    (h : WF s) : WF (setTTL s now k ttl).2 := by
  rw [setTTL]
  cases hm : alGet s.metadata k with
  | none => exact h
  | some md =>
    dsimp only
    refine ⟨?_, ?_⟩
    · dsimp only [emit]
      exact h.1
    · dsimp only [emit]
      rw [keysOf_alSet, if_pos (alHas_of_alGet_some hm)]
      exact h.2

theorem WF_close {s : MemoryBank V} (h : WF s) : WF (close s) := h

theorem WF_mkBank (maxSize ttl : Option Int) (autoCleanup : Option Bool)
    (cleanupInterval : Option Int) :
    WF (mkBank maxSize ttl autoCleanup cleanupInterval : MemoryBank V) :=
  ⟨List.nodup_nil, rfl⟩

end MemoryBank

/-- Each public operation (and the sweep) preserves well-formedness. -/
theorem WF_applyOp {V : Type} (now : Int) (s : MemoryBank V) (op : Op V)
    (h : WF s) : WF (applyOp now s op) := by
  cases op with
  | set k v ttl => exact MemoryBank.WF_set now k v ttl h
  | get k => exact MemoryBank.WF_get now k h
  | has k => exact MemoryBank.WF_has now k h
  | delete k => exact MemoryBank.WF_delete k h
  | clear => exact MemoryBank.WF_clear h
  | keys => exact MemoryBank.WF_keys now h
  | values => exact MemoryBank.WF_values now h
  | entries => exact MemoryBank.WF_entries now h
  | setTTL k ttl => exact MemoryBank.WF_setTTL now k ttl h
  | getTTL k => exact h
  | getInfo k => exact h
  | getStats => exact h
  | close => exact MemoryBank.WF_close h
  | sweep => exact MemoryBank.WF_cleanupExpired now h

/-! Equation lemmas giving each operation's resulting state explicitly. -/

namespace MemoryBank

variable {V : Type}

theorem delete_of_has {s : MemoryBank V} {k : Key} (hk : alHas s.data k = true) :
    delete s k = (true,
      { s with data := alDelete s.data k
               metadata := alDelete s.metadata k
               stats := { s.stats with deletes := s.stats.deletes + 1
                                       totalOperations := s.stats.totalOperations + 1 }
               events := s.events ++ [Event.deleteEv k (alSize (alDelete s.data k))] }) := by
  rw [delete, if_pos hk]
  rfl

theorem delete_of_not_has {s : MemoryBank V} {k : Key}
    (hk : alHas s.data k = false) : delete s k = (false, s) := by
  rw [delete, if_neg (by simp [hk])]

theorem evictOldest_of_none {s : MemoryBank V}
    (hf : findOldest s.metadata = none) : evictOldest s = s := by
  rw [evictOldest, hf]

theorem evictOldest_of_empty_key {s : MemoryBank V}
    (hf : findOldest s.metadata = some "") : evictOldest s = s := by
  rw [evictOldest, hf]
  dsimp only
  rw [if_pos rfl]

theorem evictOldest_of_some {s : MemoryBank V} {ok : Key}
    (hf : findOldest s.metadata = some ok) (hok : ok ≠ "") :
    evictOldest s =
      { (delete s ok).2 with
        stats := { (delete s ok).2.stats with
          evictions := (delete s ok).2.stats.evictions + 1 }
        events := (delete s ok).2.events ++ [Event.eviction ok "size_limit"] } := by
  rw [evictOldest, hf]
  dsimp only
  rw [if_neg hok]
  rfl

theorem set_of_no_evict {s : MemoryBank V} {now : Int} {k : Key} {v : V}
    {ttl : Option Int}
    (hc : ¬ ((alSize s.data : Int) ≥ s.options.maxSize ∧ ¬ alHas s.data k)) :
    set s now k v ttl = (true,
      { s with data := alSet s.data k v
               metadata := alSet s.metadata k (freshMeta now (ttl.getD s.options.ttl))
               stats := { s.stats with
                 totalOperations := s.stats.totalOperations + 1
                 writes := s.stats.writes + 1 }
               events := s.events ++ [Event.setEv k (alSize (alSet s.data k v))] }) := by
  rw [set]
  dsimp only [bumpWrite]
  rw [if_neg hc]
  rfl

theorem set_of_evict {s : MemoryBank V} {now : Int} {k : Key} {v : V}
    {ttl : Option Int}
    (hc : (alSize s.data : Int) ≥ s.options.maxSize ∧ ¬ alHas s.data k) :
    set s now k v ttl = (true,
      { evictOldest (bumpWrite s) with
        data := alSet (evictOldest (bumpWrite s)).data k v
        metadata := alSet (evictOldest (bumpWrite s)).metadata k
          (freshMeta now (ttl.getD (evictOldest (bumpWrite s)).options.ttl))
        events := (evictOldest (bumpWrite s)).events ++
          [Event.setEv k (alSize (alSet (evictOldest (bumpWrite s)).data k v))] }) := by
  rw [set]
  dsimp only [bumpWrite]
  rw [if_pos hc]
  rfl

theorem get_of_miss {s : MemoryBank V} {now : Int} {k : Key}
    (hk : alHas s.data k = false) :
    get s now k = (none,
      { s with stats := { s.stats with
                 totalOperations := s.stats.totalOperations + 1
                 reads := s.stats.reads + 1
                 misses := s.stats.misses + 1 }
               events := s.events ++ [Event.miss k none] }) := by
  rw [get]
  dsimp only [bumpRead]
  rw [if_pos (by simp [hk])]
  rfl

theorem get_of_no_metadata {s : MemoryBank V} {now : Int} {k : Key}
    (hk : alHas s.data k = true) (hm : alGet s.metadata k = none) :
    get s now k = (none,
      { s with stats := { s.stats with
                 totalOperations := s.stats.totalOperations + 1
                 reads := s.stats.reads + 1 }
               events := s.events ++ [Event.errorEv] }) := by
  rw [get]
  dsimp only [bumpRead]
  rw [if_neg (fun hc => hc hk), hm]
  rfl

theorem get_of_expired {s : MemoryBank V} {now : Int} {k : Key} {md : Metadata}
    (hk : alHas s.data k = true) (hm : alGet s.metadata k = some md)
    (he : isExpired md now = true) :
    get s now k = (none,
      { s with data := alDelete s.data k
               metadata := alDelete s.metadata k
               stats := { s.stats with
                 totalOperations := s.stats.totalOperations + 1 + 1
                 reads := s.stats.reads + 1
                 deletes := s.stats.deletes + 1
                 misses := s.stats.misses + 1 }
               events := s.events ++ [Event.deleteEv k (alSize (alDelete s.data k))]
                 ++ [Event.miss k (some "expired")] }) := by
  rw [get]
  dsimp only
  have hk1 : alHas (bumpRead s).data k = true := hk
  have hm1 : alGet (bumpRead s).metadata k = some md := hm
  rw [if_neg (fun hc => hc hk1), hm1]
  dsimp only
  rw [if_pos he, delete_of_has hk1]
  rfl

theorem get_of_live {s : MemoryBank V} {now : Int} {k : Key} {md : Metadata}
    (hk : alHas s.data k = true) (hm : alGet s.metadata k = some md)
    (he : isExpired md now = false) :
    get s now k = (alGet s.data k,
      { s with metadata := alSet s.metadata k
                 { md with accessCount := md.accessCount + 1, lastAccess := now }
               stats := { s.stats with
                 totalOperations := s.stats.totalOperations + 1
                 reads := s.stats.reads + 1
                 hits := s.stats.hits + 1 }
               events := s.events ++ [Event.hit k (md.accessCount + 1)] }) := by
  rw [get]
  dsimp only [bumpRead]
  rw [if_neg (fun hc => hc hk), hm]
  dsimp only
  rw [if_neg (by simp [he])]
  rfl

theorem has_of_absent {s : MemoryBank V} {now : Int} {k : Key}
    (hk : alHas s.data k = false) : has s now k = (some false, s) := by
  rw [has, if_pos (by simp [hk])]

theorem has_of_no_metadata {s : MemoryBank V} {now : Int} {k : Key}
    (hk : alHas s.data k = true) (hm : alGet s.metadata k = none) :
    has s now k = (none, s) := by
  rw [has, if_neg (fun hc => hc hk), hm]

theorem has_of_expired {s : MemoryBank V} {now : Int} {k : Key} {md : Metadata}
    (hk : alHas s.data k = true) (hm : alGet s.metadata k = some md)
    (he : isExpired md now = true) :
    has s now k = (some false, (delete s k).2) := by
  rw [has, if_neg (fun hc => hc hk), hm]
  dsimp only
  rw [if_pos he]

theorem has_of_live {s : MemoryBank V} {now : Int} {k : Key} {md : Metadata}
    (hk : alHas s.data k = true) (hm : alGet s.metadata k = some md)
    (he : isExpired md now = false) :
    has s now k = (some true, s) := by
  rw [has, if_neg (fun hc => hc hk), hm]
  dsimp only
  rw [if_neg (by simp [he])]

theorem clear_eq (s : MemoryBank V) :
    clear s = (alSize s.data,
      { s with data := [], metadata := []
               events := s.events ++ [Event.clearEv (alSize s.data)] }) := rfl

theorem cleanupStep_eq (s : MemoryBank V) (k : Key) :
    cleanupStep s k =
      { (delete s k).2 with stats := { (delete s k).2.stats with
          evictions := (delete s k).2.stats.evictions + 1 } } := rfl

theorem cleanupExpired_of_ttl_nonpos {s : MemoryBank V} {now : Int}
    (ht : s.options.ttl ≤ 0) : cleanupExpired s now = s := by
  rw [cleanupExpired, if_pos ht]

theorem cleanupExpired_of_ttl_pos {s : MemoryBank V} {now : Int}
    (ht : 0 < s.options.ttl) :
    cleanupExpired s now =
      (if (expiredKeysOf s now).length > 0 then
        emit (cleanupLoop s (expiredKeysOf s now))
          (Event.cleanup (expiredKeysOf s now).length)
      else cleanupLoop s (expiredKeysOf s now)) := by
  rw [cleanupExpired, if_neg (not_le.mpr ht)]

theorem keys_eq (s : MemoryBank V) (now : Int) :
    keys s now = (keysOf (cleanupExpired s now).data, cleanupExpired s now) := rfl

theorem values_eq (s : MemoryBank V) (now : Int) :
    values s now = ((cleanupExpired s now).data.map Prod.snd,
      cleanupExpired s now) := rfl

theorem entries_eq (s : MemoryBank V) (now : Int) :
    entries s now = ((cleanupExpired s now).data.filterMap
      (fun p => (alGet (cleanupExpired s now).metadata p.1).map
        (fun md => (p.1, p.2, md))), cleanupExpired s now) := rfl

/-! Frame lemmas: which operations leave `options` untouched. -/

theorem options_delete (s : MemoryBank V) (k : Key) :
    (delete s k).2.options = s.options := by
  by_cases hk : alHas s.data k
  · rw [delete_of_has hk]
  · rw [delete_of_not_has (by simpa using hk)]

theorem options_evictOldest (s : MemoryBank V) :
    (evictOldest s).options = s.options := by
  cases hf : findOldest s.metadata with
  | none => rw [evictOldest_of_none hf]
  | some ok =>
    by_cases hok : ok = ""
    · subst hok
      rw [evictOldest_of_empty_key hf]
    · rw [evictOldest_of_some hf hok]
      exact options_delete s ok

theorem options_set (s : MemoryBank V) (now : Int) (k : Key) (v : V)
    (ttl : Option Int) : (set s now k v ttl).2.options = s.options := by
  by_cases hc : (alSize s.data : Int) ≥ s.options.maxSize ∧ ¬ alHas s.data k
  · rw [set_of_evict hc]
    exact options_evictOldest (bumpWrite s)
  · rw [set_of_no_evict hc]

theorem data_delete_alHas_ne (s : MemoryBank V) (x k : Key) (h : k ≠ x) :
    alHas (delete s x).2.data k = alHas s.data k := by
  by_cases hx : alHas s.data x
  · rw [delete_of_has hx]
    exact alHas_alDelete_ne _ _ _ h
  · rw [delete_of_not_has (by simpa using hx)]

end MemoryBank

/-! Claim theorems. -/

/-- C9: for every store state, `clear()` empties both the value map and
the metadata map, returns the number of keys present immediately before
the call, and leaves every statistics counter (totalOperations, reads,
writes, deletes, evictions, hits, misses) unchanged. -/
theorem C9_clear_empties_and_preserves_stats {V : Type} (s : MemoryBank V) :
    (MemoryBank.clear s).1 = alSize s.data ∧
    (MemoryBank.clear s).2.data = [] ∧
    (MemoryBank.clear s).2.metadata = [] ∧
    (MemoryBank.clear s).2.stats = s.stats := by
  rw [MemoryBank.clear_eq]
  exact ⟨rfl, rfl, rfl, rfl⟩

/-- C10: a `get` on a present-but-expired key removes the entry and its
metadata, returns absent, and changes statistics by exactly
misses + 1, deletes + 1, totalOperations + 2 (one for the read, one for
the internal delete) and reads + 1, with hits, writes and evictions
unchanged. -/
theorem C10_get_expired_stats {V : Type} (s : MemoryBank V) (now : Int)
    (k : Key) (md : Metadata) (e : Int)
    (hk : alHas s.data k = true) (hm : alGet s.metadata k = some md)
    (hee : md.expiresAt = some e) (hepos : 0 < e) (hnow : e < now) :
    (MemoryBank.get s now k).1 = none ∧
    alHas (MemoryBank.get s now k).2.data k = false ∧
    alHas (MemoryBank.get s now k).2.metadata k = false ∧
    (MemoryBank.get s now k).2.stats.misses = s.stats.misses + 1 ∧
    (MemoryBank.get s now k).2.stats.deletes = s.stats.deletes + 1 ∧
    (MemoryBank.get s now k).2.stats.totalOperations = s.stats.totalOperations + 2 ∧
    (MemoryBank.get s now k).2.stats.reads = s.stats.reads + 1 ∧
    (MemoryBank.get s now k).2.stats.hits = s.stats.hits ∧
    (MemoryBank.get s now k).2.stats.writes = s.stats.writes ∧
    (MemoryBank.get s now k).2.stats.evictions = s.stats.evictions := by
  have he : MemoryBank.isExpired md now = true := by
    simp only [MemoryBank.isExpired, hee, Bool.and_eq_true, bne_iff_ne,
      decide_eq_true_eq]
    exact ⟨by omega, by omega⟩
  rw [MemoryBank.get_of_expired hk hm he]
  refine ⟨rfl, ?_, ?_, rfl, rfl, rfl, rfl, rfl, rfl, rfl⟩
  · exact alHas_alDelete_self s.data k
  · exact alHas_alDelete_self s.metadata k

/-- Witness for C10 at a concrete input: bank holding key "a" written at
time 0 with TTL 10, read at time 20. -/
theorem C10_get_expired_stats_witness :
    (MemoryBank.get
      (MemoryBank.set (MemoryBank.mkBank none none none none : MemoryBank Nat)
        0 "a" 7 (some 10)).2 20 "a").1 = none :=
  (C10_get_expired_stats _ 20 "a"
    (MemoryBank.freshMeta 0 10) 10
    (by decide) (by decide) (by decide) (by decide) (by decide)).1

/-- C6: a `set` on an already-present key resets that key's metadata:
`createdAt` becomes `now` and `expiresAt` becomes `now + effective TTL`
(absent when the effective TTL is 0), so expiry is measured from the
most recent write; in particular `set(k, v1, 1000)` followed 900ms later
by `set(k, v2, 1000)` leaves the entry present with value `v2` at
1500ms after the first write. -/
theorem C6_set_overwrite_resets_clock {V : Type} (s : MemoryBank V)
    (now : Int) (k : Key) (v : V) (ttl : Option Int)
    (hk : alHas s.data k = true) :
    (∃ md, alGet (MemoryBank.set s now k v ttl).2.metadata k = some md ∧
      md.createdAt = now ∧
      (ttl.getD s.options.ttl = 0 → md.expiresAt = none) ∧
      (0 < ttl.getD s.options.ttl →
        md.expiresAt = some (now + ttl.getD s.options.ttl))) ∧
    (MemoryBank.get
      (MemoryBank.set
        (MemoryBank.set (MemoryBank.mkBank none none none none : MemoryBank Nat)
          0 "k" 1 (some 1000)).2
        900 "k" 2 (some 1000)).2
      1500 "k").1 = some 2 := by
  constructor
  · have hc : ¬ ((alSize s.data : Int) ≥ s.options.maxSize ∧ ¬ alHas s.data k) := by
      simp [hk]
    rw [MemoryBank.set_of_no_evict hc]
    refine ⟨MemoryBank.freshMeta now (ttl.getD s.options.ttl), ?_, rfl, ?_, ?_⟩
    · exact alGet_alSet_self _ _ _
    · intro h0
      simp [MemoryBank.freshMeta, h0]
    · intro hpos
      simp [MemoryBank.freshMeta, hpos]
  · decide

/-- Witness for C6 at a concrete input: overwrite of key "k". -/
theorem C6_set_overwrite_resets_clock_witness :
    ∃ md, alGet (MemoryBank.set
        (MemoryBank.set (MemoryBank.mkBank none none none none : MemoryBank Nat)
          0 "k" 5 (some 50)).2
        30 "k" 6 (some 50)).2.metadata "k" = some md ∧
      md.createdAt = 30 ∧
      ((some (50 : Int)).getD
        (MemoryBank.set (MemoryBank.mkBank none none none none : MemoryBank Nat)
          0 "k" 5 (some 50)).2.options.ttl = 0 → md.expiresAt = none) ∧
      (0 < (some (50 : Int)).getD
        (MemoryBank.set (MemoryBank.mkBank none none none none : MemoryBank Nat)
          0 "k" 5 (some 50)).2.options.ttl →
        md.expiresAt = some (30 + (some (50 : Int)).getD
          (MemoryBank.set (MemoryBank.mkBank none none none none : MemoryBank Nat)
            0 "k" 5 (some 50)).2.options.ttl)) :=
  (C6_set_overwrite_resets_clock _ 30 "k" 6 (some 50) (by decide)).1

/-! Helper lemmas for the no-expiry sentinel. -/

theorem alGet_of_mem_nodup {α : Type} {m : AList α} {k : Key} {v : α}
    (hn : (keysOf m).Nodup) (hmem : (k, v) ∈ m) : alGet m k = some v := by
  induction m with
  | nil => simp at hmem
  | cons p m ih =>
    have hn2 : (keysOf m).Nodup := by
      rw [keysOf, List.map_cons, List.nodup_cons] at hn
      exact hn.2
    rw [alGet_cons]
    rcases List.mem_cons.mp hmem with he | hmem2
    · rw [← he]
      simp
    · by_cases hp : (p.1 == k) = true
      · exfalso
        have hk1 : p.1 = k := by simpa using hp
        have hmem3 : k ∈ keysOf m := by
          rw [keysOf, List.mem_map]
          exact ⟨(k, v), hmem2, rfl⟩
        rw [keysOf, List.map_cons, List.nodup_cons] at hn
        exact hn.1 (hk1 ▸ hmem3)
      · rw [if_neg hp]
        exact ih hn2 hmem2

theorem isExpired_of_none {md : Metadata} (hnone : md.expiresAt = none)
    (now : Int) : MemoryBank.isExpired md now = false := by
  simp [MemoryBank.isExpired, hnone]

namespace MemoryBank

variable {V : Type}

theorem get_preserves_key (s : MemoryBank V) (now2 : Int) (k2 k : Key)
    {md : Metadata} (hk : alHas s.data k = true)
    (hm : alGet s.metadata k = some md) (hnone : md.expiresAt = none) :
    alHas (get s now2 k2).2.data k = true := by
  by_cases heq : k2 = k
  · subst heq
    rw [get_of_live hk hm (isExpired_of_none hnone now2)]
    exact hk
  · by_cases hk2 : alHas s.data k2
    · cases hm2 : alGet s.metadata k2 with
      | none =>
        rw [get_of_no_metadata hk2 hm2]
        exact hk
      | some md2 =>
        by_cases he2 : isExpired md2 now2 = true
        · rw [get_of_expired hk2 hm2 he2]
          rw [show alHas
            ({ s with data := alDelete s.data k2
                      metadata := alDelete s.metadata k2
                      stats := { s.stats with
                        totalOperations := s.stats.totalOperations + 1 + 1
                        reads := s.stats.reads + 1
                        deletes := s.stats.deletes + 1
                        misses := s.stats.misses + 1 }
                      events := s.events ++
                        [Event.deleteEv k2 (alSize (alDelete s.data k2))]
                        ++ [Event.miss k2 (some "expired")] } :
              MemoryBank V).data k = alHas (alDelete s.data k2) k from rfl]
          rw [alHas_alDelete_ne _ _ _ (fun h => heq h.symm)]
          exact hk
        · rw [get_of_live hk2 hm2 (by simpa using he2)]
          exact hk
    · rw [get_of_miss (by simpa using hk2)]
      exact hk

theorem has_preserves_key (s : MemoryBank V) (now2 : Int) (k2 k : Key)
    {md : Metadata} (hk : alHas s.data k = true)
    (hm : alGet s.metadata k = some md) (hnone : md.expiresAt = none) :
    alHas (has s now2 k2).2.data k = true := by
  by_cases heq : k2 = k
  · subst heq
    rw [has_of_live hk hm (isExpired_of_none hnone now2)]
    exact hk
  · by_cases hk2 : alHas s.data k2
    · cases hm2 : alGet s.metadata k2 with
      | none =>
        rw [has_of_no_metadata hk2 hm2]
        exact hk
      | some md2 =>
        by_cases he2 : isExpired md2 now2 = true
        · rw [has_of_expired hk2 hm2 he2]
          rw [data_delete_alHas_ne s k2 k (fun h => heq h.symm)]
          exact hk
        · rw [has_of_live hk2 hm2 (by simpa using he2)]
          exact hk
    · rw [has_of_absent (by simpa using hk2)]
      exact hk

theorem cleanupLoop_alHas_not_mem (l : List Key) (s : MemoryBank V) (k : Key)
    (hnot : k ∉ l) : alHas (cleanupLoop s l).data k = alHas s.data k := by
  induction l generalizing s with
  | nil => rfl
  | cons x l ih =>
    rw [cleanupLoop, List.foldl_cons]
    have h1 : alHas (cleanupLoop (cleanupStep s x) l).data k
        = alHas (cleanupStep s x).data k :=
      ih (cleanupStep s x) (fun h => hnot (List.mem_cons_of_mem _ h))
    rw [show (l.foldl cleanupStep (cleanupStep s x))
      = cleanupLoop (cleanupStep s x) l from rfl, h1]
    have hne : k ≠ x := fun h => hnot (h ▸ List.mem_cons_self x l)
    exact data_delete_alHas_ne s x k hne

theorem not_mem_expiredKeysOf {s : MemoryBank V} {k : Key} {md : Metadata}
    {now : Int} (hwf : WF s) (hm : alGet s.metadata k = some md)
    (hfalse : isExpired md now = false) : k ∉ expiredKeysOf s now := by
  intro hmem
  rw [expiredKeysOf, keysOf, List.mem_map] at hmem
  obtain ⟨p, hp, hpk⟩ := hmem
  rw [List.mem_filter] at hp
  obtain ⟨pk, pmd⟩ := p
  simp only at hpk
  have hnodupm : (keysOf s.metadata).Nodup := hwf.2 ▸ hwf.1
  have hget : alGet s.metadata k = some pmd := by
    rw [← hpk]
    exact alGet_of_mem_nodup hnodupm hp.1
  have hmd : md = pmd := Option.some.inj (hm.symm.trans hget)
  have hcontra : isExpired pmd now = true := hp.2
  rw [← hmd, hfalse] at hcontra
  exact absurd hcontra (by simp)

theorem cleanupExpired_preserves_key (s : MemoryBank V) (now : Int) (k : Key)
    {md : Metadata} (hwf : WF s) (hk : alHas s.data k = true)
    (hm : alGet s.metadata k = some md) (hnone : md.expiresAt = none) :
    alHas (cleanupExpired s now).data k = true := by
  by_cases ht : s.options.ttl ≤ 0
  · rw [cleanupExpired_of_ttl_nonpos ht]
    exact hk
  · rw [cleanupExpired_of_ttl_pos (by omega)]
    have hnot : k ∉ expiredKeysOf s now :=
      not_mem_expiredKeysOf hwf hm (isExpired_of_none hnone now)
    by_cases hlen : (expiredKeysOf s now).length > 0
    · rw [if_pos hlen]
      show alHas (cleanupLoop s (expiredKeysOf s now)).data k = true
      rw [cleanupLoop_alHas_not_mem _ _ _ hnot]
      exact hk
    · rw [if_neg hlen]
      rw [cleanupLoop_alHas_not_mem _ _ _ hnot]
      exact hk

end MemoryBank

/-- C5: a key written with effective TTL 0 gets metadata with
`expiresAt` absent, and an entry whose metadata has no expiry instant is
never removed by the lazy expiry of `get` or `has` (on any queried key)
nor by the active sweep, at any instant. -/
theorem C5_no_expiry_sentinel {V : Type} (s0 s : MemoryBank V)
    (now0 now : Int) (k0 k k2 : Key) (v : V) (t : Option Int) (md : Metadata)
    (hz : t.getD s0.options.ttl = 0)
    (hwf : WF s) (hk : alHas s.data k = true)
    (hm : alGet s.metadata k = some md) (hnone : md.expiresAt = none) :
    (∃ md0, alGet (MemoryBank.set s0 now0 k0 v t).2.metadata k0 = some md0 ∧
      md0.expiresAt = none) ∧
    alHas (MemoryBank.get s now k2).2.data k = true ∧
    alHas (MemoryBank.has s now k2).2.data k = true ∧
    alHas (MemoryBank.cleanupExpired s now).data k = true := by
  refine ⟨?_, MemoryBank.get_preserves_key s now k2 k hk hm hnone,
    MemoryBank.has_preserves_key s now k2 k hk hm hnone,
    MemoryBank.cleanupExpired_preserves_key s now k hwf hk hm hnone⟩
  by_cases hc : (alSize s0.data : Int) ≥ s0.options.maxSize ∧ ¬ alHas s0.data k0
  · rw [MemoryBank.set_of_evict hc]
    refine ⟨_, alGet_alSet_self _ _ _, ?_⟩
    have heff : t.getD (MemoryBank.evictOldest
        (MemoryBank.bumpWrite s0)).options.ttl = 0 := by
      rw [MemoryBank.options_evictOldest]
      exact hz
    simp [MemoryBank.freshMeta, heff]
  · rw [MemoryBank.set_of_no_evict hc]
    refine ⟨_, alGet_alSet_self _ _ _, ?_⟩
    simp [MemoryBank.freshMeta, hz]

/-- Witness for C5 at a concrete input: default TTL 100, key "a" written
with explicit TTL 0, swept at time 1000. -/
theorem C5_no_expiry_sentinel_witness :
    alHas (MemoryBank.cleanupExpired
      (MemoryBank.set (MemoryBank.mkBank none (some 100) none none :
        MemoryBank Nat) 0 "a" 1 (some 0)).2 1000).data "a" = true :=
  (C5_no_expiry_sentinel
    (MemoryBank.mkBank none (some 100) none none : MemoryBank Nat)
    (MemoryBank.set (MemoryBank.mkBank none (some 100) none none :
      MemoryBank Nat) 0 "a" 1 (some 0)).2
    0 1000 "a" "a" "b" 1 (some 0)
    (MemoryBank.freshMeta 0 0) (by decide) ⟨by decide, by decide⟩ (by decide)
    (by decide) (by decide)).2.2.2

/-! Capacity-bound machinery. -/

namespace MemoryBank

variable {V : Type}

theorem delete_keys_subset (s : MemoryBank V) (x k : Key)
    (h : k ∈ keysOf (delete s x).2.data) : k ∈ keysOf s.data := by
  by_cases hx : alHas s.data x
  · rw [delete_of_has hx] at h
    have h2 : k ∈ keysOf (alDelete s.data x) := h
    exact ((mem_keysOf_alDelete s.data x k).mp h2).1
  · rw [delete_of_not_has (by simpa using hx)] at h
    exact h

theorem evictOldest_keys_subset (s : MemoryBank V) (k : Key)
    (h : k ∈ keysOf (evictOldest s).data) : k ∈ keysOf s.data := by
  cases hf : findOldest s.metadata with
  | none =>
    rw [evictOldest_of_none hf] at h
    exact h
  | some ok =>
    by_cases hok : ok = ""
    · subst hok
      rw [evictOldest_of_empty_key hf] at h
      exact h
    · rw [evictOldest_of_some hf hok] at h
      have h2 : k ∈ keysOf (delete s ok).2.data := h
      exact delete_keys_subset s ok k h2

theorem metadata_ne_nil_of_data_ne_nil {s : MemoryBank V} (hwf : WF s)
    (hd : s.data ≠ []) : s.metadata ≠ [] := by
  intro he
  apply hd
  have h2 := hwf.2
  rw [he] at h2
  have h3 : s.data.map Prod.fst = [] := by simpa [keysOf] using h2
  exact List.map_eq_nil_iff.mp h3

theorem evictOldest_size {s : MemoryBank V} (hwf : WF s)
    (hne : "" ∉ keysOf s.data) (hd : s.data ≠ []) :
    alSize (evictOldest s).data + 1 = alSize s.data := by
  have hmne : s.metadata ≠ [] := metadata_ne_nil_of_data_ne_nil hwf hd
  cases hf : findOldest s.metadata with
  | none => exact absurd (findOldest_eq_none.mp hf) hmne
  | some ok =>
    have hokmem : ok ∈ keysOf s.data := hwf.2 ▸ findOldest_mem hf
    have hok : ok ≠ "" := fun h => hne (h ▸ hokmem)
    rw [evictOldest_of_some hf hok]
    show alSize (delete s ok).2.data + 1 = alSize s.data
    have hhas : alHas s.data ok = true := (alHas_eq_mem _ _).mpr hokmem
    rw [delete_of_has hhas]
    show alSize (alDelete s.data ok) + 1 = alSize s.data
    exact alSize_alDelete_of_has _ _ hwf.1 hhas

theorem mem_keysOf_set {s : MemoryBank V} {now : Int} {k k2 : Key} {v : V}
    {t : Option Int} (h : k2 ∈ keysOf (set s now k v t).2.data) :
    k2 ∈ keysOf s.data ∨ k2 = k := by
  by_cases hc : (alSize s.data : Int) ≥ s.options.maxSize ∧ ¬ alHas s.data k
  · rw [set_of_evict hc] at h
    have h2 : k2 ∈ keysOf (alSet (evictOldest (bumpWrite s)).data k v) := h
    rw [keysOf_alSet] at h2
    by_cases hh : alHas (evictOldest (bumpWrite s)).data k
    · rw [if_pos hh] at h2
      exact Or.inl (evictOldest_keys_subset (bumpWrite s) k2 h2)
    · rw [if_neg hh] at h2
      rcases List.mem_append.mp h2 with h3 | h3
      · exact Or.inl (evictOldest_keys_subset (bumpWrite s) k2 h3)
      · exact Or.inr (by simpa using h3)
  · rw [set_of_no_evict hc] at h
    have h2 : k2 ∈ keysOf (alSet s.data k v) := h
    rw [keysOf_alSet] at h2
    by_cases hh : alHas s.data k
    · rw [if_pos hh] at h2
      exact Or.inl h2
    · rw [if_neg hh] at h2
      rcases List.mem_append.mp h2 with h3 | h3
      · exact Or.inl h3
      · exact Or.inr (by simpa using h3)

theorem set_size_le {s : MemoryBank V} {now : Int} {k : Key} {v : V}
    {t : Option Int} (hwf : WF s) (hne : "" ∉ keysOf s.data) (_hkne : k ≠ "")
    (hsz : (alSize s.data : Int) ≤ max s.options.maxSize 1) :
    (alSize (set s now k v t).2.data : Int) ≤ max s.options.maxSize 1 := by
  by_cases hc : (alSize s.data : Int) ≥ s.options.maxSize ∧ ¬ alHas s.data k
  · have hdata : (set s now k v t).2.data
        = alSet (evictOldest (bumpWrite s)).data k v := by
      rw [set_of_evict hc]
    have hkE : alHas (evictOldest (bumpWrite s)).data k = false := by
      rw [← Bool.not_eq_true, alHas_eq_mem]
      intro hmem
      have h2 : k ∈ keysOf s.data :=
        evictOldest_keys_subset (bumpWrite s) k hmem
      exact hc.2 ((alHas_eq_mem _ _).mpr h2)
    rw [hdata, alSize_alSet, if_neg (by simp [hkE])]
    by_cases hd : s.data = []
    · have hmd : s.metadata = [] := by
        have h2 := hwf.2
        rw [hd] at h2
        have h3 : s.metadata.map Prod.fst = [] := by simpa [keysOf] using h2
        exact List.map_eq_nil_iff.mp h3
    
      have hE : (evictOldest (bumpWrite s)).data = s.data := by
        have hfn : findOldest (bumpWrite s).metadata = none := by
          show findOldest s.metadata = none
          rw [hmd, findOldest_eq_none]
        rw [evictOldest_of_none hfn]
        rfl
      rw [hE, hd]
      show ((0 + 1 : Nat) : Int) ≤ max s.options.maxSize 1
      have h1 : (1 : Int) ≤ max s.options.maxSize 1 := le_max_right _ _
      omega
    · have hev := evictOldest_size (s := bumpWrite s) hwf hne hd
      have hev2 : alSize (evictOldest (bumpWrite s)).data + 1 = alSize s.data :=
        hev
      omega
  · have hdata : (set s now k v t).2.data = alSet s.data k v := by
      rw [set_of_no_evict hc]
    rw [hdata, alSize_alSet]
    by_cases hh : alHas s.data k
    · rw [if_pos hh]
      exact hsz
    · rw [if_neg hh]
      push_neg at hc
      have hlt : (alSize s.data : Int) < s.options.maxSize := by
        by_contra hge
        push_neg at hge
        rw [hc hge] at hh
        exact hh rfl
      have h1 : s.options.maxSize ≤ max s.options.maxSize 1 := le_max_left _ _
      push_cast
      omega

theorem CapInv_set {s : MemoryBank V} (now : Int) (k : Key) (v : V)
    (t : Option Int) (hkne : k ≠ "") (h : CapInv s) :
    CapInv (set s now k v t).2 := by
  obtain ⟨hwf, hne, hsz⟩ := h
  refine ⟨WF_set now k v t hwf, ?_, ?_⟩
  · intro hmem
    rcases mem_keysOf_set hmem with hin | he
    · exact hne hin
    · exact hkne he.symm
  · rw [show (set s now k v t).2.options = s.options from options_set s now k v t]
    exact set_size_le hwf hne hkne hsz

end MemoryBank

theorem options_runSets {V : Type} (l : List (Int × Key × V × Option Int))
    (s : MemoryBank V) : (runSets s l).options = s.options := by
  induction l generalizing s with
  | nil => rfl
  | cons x l ih =>
    rw [runSets, List.foldl_cons]
    have h1 := ih (MemoryBank.set s x.1 x.2.1 x.2.2.1 x.2.2.2).2
    rw [show l.foldl (fun acc q => (MemoryBank.set acc q.1 q.2.1 q.2.2.1 q.2.2.2).2)
          (MemoryBank.set s x.1 x.2.1 x.2.2.1 x.2.2.2).2
        = runSets (MemoryBank.set s x.1 x.2.1 x.2.2.1 x.2.2.2).2 l from rfl, h1]
    exact MemoryBank.options_set s x.1 x.2.1 x.2.2.1 x.2.2.2

theorem CapInv_runSets {V : Type} (l : List (Int × Key × V × Option Int))
    (s : MemoryBank V) (hkeys : ∀ q ∈ l, q.2.1 ≠ "") (h : CapInv s) :
    CapInv (runSets s l) := by
  induction l generalizing s with
  | nil => exact h
  | cons x l ih =>
    rw [runSets, List.foldl_cons]
    exact ih (MemoryBank.set s x.1 x.2.1 x.2.2.1 x.2.2.2).2
      (fun q hq => hkeys q (List.mem_cons_of_mem _ hq))
      (MemoryBank.CapInv_set x.1 x.2.1 x.2.2.1 x.2.2.2
        (hkeys x (List.mem_cons_self _ _)) h)

/-- C1 counterexample: with `maxSize = 0` (reachable because the
constructor's option spread lets a caller-supplied 0 win over the
`|| 1000` fallback), a single `set` on the fresh store leaves one entry,
so the store is not empty and `size ≤ maxSize` fails. -/
theorem C1_counterexample :
    (MemoryBank.mkBank (some 0) none none none :
      MemoryBank Nat).options.maxSize = 0 ∧
    alSize (MemoryBank.set (MemoryBank.mkBank (some 0) none none none :
      MemoryBank Nat) 0 "a" 1 none).2.data = 1 := by
  decide

/-- C1 (amended): starting from a freshly constructed store, for every
sequence of `set` calls whose keys are not the empty string, immediately
after each call the number of stored keys is at most
`max maxSize 1` — i.e. at most `maxSize` whenever `maxSize ≥ 1`; when
`maxSize = 0` every `set` still evicts the previous entry before
inserting, but the store then holds exactly the written entry (one key),
not zero. -/
theorem C1_capacity_bound {V : Type} (maxSize ttl : Option Int)
    (ac : Option Bool) (ci : Option Int)
    (l : List (Int × Key × V × Option Int))
    (hkeys : ∀ q ∈ l, q.2.1 ≠ "") :
    (alSize (runSets (MemoryBank.mkBank maxSize ttl ac ci) l).data : Int)
      ≤ max (maxSize.getD 1000) 1 := by
  have h0 : CapInv (MemoryBank.mkBank maxSize ttl ac ci : MemoryBank V) := by
    refine ⟨⟨List.nodup_nil, rfl⟩, by simp [keysOf, MemoryBank.mkBank], ?_⟩
    show ((0 : Nat) : Int) ≤ max (maxSize.getD 1000) 1
    have h1 : (1 : Int) ≤ max (maxSize.getD 1000) 1 := le_max_right _ _
    omega
  have h2 := (CapInv_runSets l _ hkeys h0).2.2
  rw [options_runSets] at h2
  exact h2

/-- Witness for C1 at a concrete input: `maxSize = 1`, keys "a" then
"b"; the final size is 1 ≤ max 1 1. -/
theorem C1_capacity_bound_witness :
    (alSize (runSets
      (MemoryBank.mkBank (some 1) none none none : MemoryBank Nat)
      [(0, "a", 1, none), (1, "b", 2, none)]).data : Int)
      ≤ max ((some (1 : Int)).getD 1000) 1 :=
  C1_capacity_bound (some 1) none none none
    [(0, "a", 1, none), (1, "b", 2, none)] (by decide)

/-- C4 counterexample: `maxSize = 1`, with the empty-string key stored.
Setting the fresh key "b" while the store holds exactly `maxSize`
entries deletes nothing, increments no eviction counter and leaves two
entries, because `_evictOldest`'s `if (oldestKey)` truthiness test is
false for the empty-string key. -/
theorem C4_counterexample :
    (MemoryBank.mkBank (some 1) none none none :
      MemoryBank Nat).options.maxSize = 1 ∧
    alSize (MemoryBank.set (MemoryBank.mkBank (some 1) none none none :
      MemoryBank Nat) 0 "" 1 none).2.data = 1 ∧
    alHas (MemoryBank.set (MemoryBank.mkBank (some 1) none none none :
      MemoryBank Nat) 0 "" 1 none).2.data "b" = false ∧
    alSize (MemoryBank.set (MemoryBank.set
      (MemoryBank.mkBank (some 1) none none none : MemoryBank Nat)
      0 "" 1 none).2 1 "b" 2 none).2.data = 2 ∧
    (MemoryBank.set (MemoryBank.set
      (MemoryBank.mkBank (some 1) none none none : MemoryBank Nat)
      0 "" 1 none).2 1 "b" 2 none).2.stats.evictions = 0 ∧
    alHas (MemoryBank.set (MemoryBank.set
      (MemoryBank.mkBank (some 1) none none none : MemoryBank Nat)
      0 "" 1 none).2 1 "b" 2 none).2.data "" = true := by
  decide

/-- C4 (amended): whenever `set` is called with a key not already
present while the well-formed store holds `maxSize ≥ 1` entries and the
scan's oldest entry (smallest `createdAt`, ties to the first seen) does
not have the empty string as its key, exactly that one entry is deleted
before the insert, the eviction counter increments by one, and an
eviction event with reason "size_limit" is emitted; with `maxSize = 2`,
setting A, B, then C evicts A and leaves exactly {B, C} (also under a
createdAt tie between A and B). -/
theorem C4_fifo_eviction {V : Type} (s : MemoryBank V) (now : Int)
    (k ok : Key) (v : V) (t : Option Int) (hwf : WF s)
    (hsz : (alSize s.data : Int) = s.options.maxSize)
    (_hpos : 1 ≤ s.options.maxSize) (hk : alHas s.data k = false)
    (hf : MemoryBank.findOldest s.metadata = some ok) (hok : ok ≠ "") :
    (∃ mdo, alGet s.metadata ok = some mdo ∧
      ∀ p ∈ s.metadata, mdo.createdAt ≤ p.2.createdAt) ∧
    alHas (MemoryBank.set s now k v t).2.data ok = false ∧
    alHas (MemoryBank.set s now k v t).2.data k = true ∧
    (∀ k2, k2 ≠ ok → k2 ≠ k →
      alHas (MemoryBank.set s now k v t).2.data k2 = alHas s.data k2) ∧
    alSize (MemoryBank.set s now k v t).2.data = alSize s.data ∧
    (MemoryBank.set s now k v t).2.stats.evictions = s.stats.evictions + 1 ∧
    Event.eviction ok "size_limit" ∈ (MemoryBank.set s now k v t).2.events ∧
    keysOf (runSets (MemoryBank.mkBank (some 2) none none none :
      MemoryBank Nat)
      [(0, "A", 1, none), (1, "B", 2, none), (2, "C", 3, none)]).data
      = ["B", "C"] ∧
    keysOf (runSets (MemoryBank.mkBank (some 2) none none none :
      MemoryBank Nat)
      [(5, "A", 1, none), (5, "B", 2, none), (6, "C", 3, none)]).data
      = ["B", "C"] := by
  have hokmem : ok ∈ keysOf s.data := hwf.2 ▸ findOldest_mem hf
  have hhas : alHas s.data ok = true := (alHas_eq_mem _ _).mpr hokmem
  have hokk : ok ≠ k := by
    intro he
    rw [he, hk] at hhas
    exact absurd hhas (by simp)
  have hc : (alSize s.data : Int) ≥ s.options.maxSize ∧ ¬ alHas s.data k :=
    ⟨le_of_eq hsz.symm, by simp [hk]⟩
  have hdata : (MemoryBank.set s now k v t).2.data
      = alSet (alDelete s.data ok) k v := by
    rw [MemoryBank.set_of_evict hc]
    show alSet (MemoryBank.evictOldest (MemoryBank.bumpWrite s)).data k v = _
    rw [MemoryBank.evictOldest_of_some (show MemoryBank.findOldest
      (MemoryBank.bumpWrite s).metadata = some ok from hf) hok]
    show alSet (MemoryBank.delete (MemoryBank.bumpWrite s) ok).2.data k v = _
    rw [MemoryBank.delete_of_has
      (show alHas (MemoryBank.bumpWrite s).data ok = true from hhas)]
    rfl
  have hdelk : alHas (alDelete s.data ok) k = false := by
    rw [alHas_alDelete_ne _ _ _ hokk.symm]
    exact hk
  refine ⟨?_, ?_, ?_, ?_, ?_, ?_, ?_, by decide, by decide⟩
  · obtain ⟨mdo, hmem, hmin⟩ := findOldest_spec hf
    exact ⟨mdo, alGet_of_mem_nodup (hwf.2 ▸ hwf.1) hmem, hmin⟩
  · rw [hdata, alHas_alSet_ne _ _ _ _ hokk]
    exact alHas_alDelete_self _ _
  · rw [hdata]
    exact alHas_alSet_self _ _ _
  · intro k2 h2ok h2k
    rw [hdata, alHas_alSet_ne _ _ _ _ h2k]
    exact alHas_alDelete_ne _ _ _ h2ok
  · rw [hdata, alSize_alSet, if_neg (by simp [hdelk])]
    have h3 := alSize_alDelete_of_has s.data ok hwf.1 hhas
    omega
  · rw [MemoryBank.set_of_evict hc]
    show (MemoryBank.evictOldest (MemoryBank.bumpWrite s)).stats.evictions
      = s.stats.evictions + 1
    rw [MemoryBank.evictOldest_of_some (show MemoryBank.findOldest
      (MemoryBank.bumpWrite s).metadata = some ok from hf) hok]
    show (MemoryBank.delete (MemoryBank.bumpWrite s) ok).2.stats.evictions + 1
      = s.stats.evictions + 1
    rw [MemoryBank.delete_of_has
      (show alHas (MemoryBank.bumpWrite s).data ok = true from hhas)]
    rfl
  · rw [MemoryBank.set_of_evict hc]
    show Event.eviction ok "size_limit" ∈
      (MemoryBank.evictOldest (MemoryBank.bumpWrite s)).events ++ _
    apply List.mem_append_left
    rw [MemoryBank.evictOldest_of_some (show MemoryBank.findOldest
      (MemoryBank.bumpWrite s).metadata = some ok from hf) hok]
    show Event.eviction ok "size_limit" ∈
      (MemoryBank.delete (MemoryBank.bumpWrite s) ok).2.events
        ++ [Event.eviction ok "size_limit"]
    exact List.mem_append_right _ (List.mem_singleton_self _)

/-- Witness for C4 at a concrete input: `maxSize = 2` store holding
"A" (created at 0) and "B" (created at 1); setting "C" evicts "A". -/
theorem C4_fifo_eviction_witness :
    alHas (MemoryBank.set (runSets
      (MemoryBank.mkBank (some 2) none none none : MemoryBank Nat)
      [(0, "A", 1, none), (1, "B", 2, none)]) 2 "C" 3 none).2.data "A"
      = false :=
  (C4_fifo_eviction (runSets
      (MemoryBank.mkBank (some 2) none none none : MemoryBank Nat)
      [(0, "A", 1, none), (1, "B", 2, none)]) 2 "C" "A" 3 none
    ⟨by decide, by decide⟩ (by decide) (by decide) (by decide) (by decide)
    (by decide)).2.1

/-! Hit-rate machinery: a sequence of `get` calls on a store whose
records carry no expiry instants bumps `totalOperations` once per call
and `hits + misses` once per call. -/

theorem mem_alSet {α : Type} {m : AList α} {k : Key} {v : α} {p : Key × α}
    (h : p ∈ alSet m k v) : p ∈ m ∨ p = (k, v) := by
  rw [alSet] at h
  by_cases hh : alHas m k
  · rw [if_pos hh] at h
    rw [List.mem_map] at h
    obtain ⟨q, hq, he⟩ := h
    rw [alOw] at he
    by_cases hqk : (q.1 == k) = true
    · rw [if_pos hqk] at he
      exact Or.inr he.symm
    · rw [if_neg hqk] at he
      exact Or.inl (he ▸ hq)
  · rw [if_neg hh] at h
    rcases List.mem_append.mp h with h1 | h1
    · exact Or.inl h1
    · exact Or.inr (by simpa using h1)

namespace MemoryBank

variable {V : Type}

theorem NoExpiry_get (s : MemoryBank V) (now : Int) (k : Key) (hwf : WF s)
    (hne : NoExpiry s) : NoExpiry (get s now k).2 := by
  by_cases hk : alHas s.data k
  · have hmm : alHas s.metadata k = true := by
      rw [← alHas_congr hwf.2]
      exact hk
    cases hm : alGet s.metadata k with
    | none =>
      have hs := alGet_isSome_eq s.metadata k
      rw [hm, hmm] at hs
      exact absurd hs (by simp)
    | some md =>
      have hexp : md.expiresAt = none := hne (k, md) (alGet_mem hm)
      rw [get_of_live hk hm (isExpired_of_none hexp now)]
      intro p hp
      have hp2 : p ∈ alSet s.metadata k
          { md with accessCount := md.accessCount + 1, lastAccess := now } := hp
      rcases mem_alSet hp2 with h1 | h1
      · exact hne p h1
      · rw [h1]
        exact hexp
  · rw [get_of_miss (by simpa using hk)]
    exact hne

theorem get_stats_noExpiry (s : MemoryBank V) (now : Int) (k : Key)
    (hwf : WF s) (hne : NoExpiry s) :
    (get s now k).2.stats.totalOperations = s.stats.totalOperations + 1 ∧
    (get s now k).2.stats.hits + (get s now k).2.stats.misses
      = s.stats.hits + s.stats.misses + 1 := by
  by_cases hk : alHas s.data k
  · have hmm : alHas s.metadata k = true := by
      rw [← alHas_congr hwf.2]
      exact hk
    cases hm : alGet s.metadata k with
    | none =>
      have hs := alGet_isSome_eq s.metadata k
      rw [hm, hmm] at hs
      exact absurd hs (by simp)
    | some md =>
      have hexp : md.expiresAt = none := hne (k, md) (alGet_mem hm)
      rw [get_of_live hk hm (isExpired_of_none hexp now)]
      refine ⟨rfl, ?_⟩
      show s.stats.hits + 1 + s.stats.misses = s.stats.hits + s.stats.misses + 1
      omega
  · rw [get_of_miss (by simpa using hk)]
    refine ⟨rfl, ?_⟩
    show s.stats.hits + (s.stats.misses + 1) = s.stats.hits + s.stats.misses + 1
    omega

theorem runGets_stats (l : List (Int × Key)) (s : MemoryBank V)
    (hwf : WF s) (hne : NoExpiry s) :
    (runGets s l).stats.totalOperations
      = s.stats.totalOperations + l.length ∧
    (runGets s l).stats.hits + (runGets s l).stats.misses
      = s.stats.hits + s.stats.misses + l.length := by
  induction l generalizing s with
  | nil => exact ⟨rfl, rfl⟩
  | cons x l ih =>
    rw [runGets, List.foldl_cons]
    have hstep := get_stats_noExpiry s x.1 x.2 hwf hne
    have hrec := ih (get s x.1 x.2).2 (WF_get x.1 x.2 hwf)
      (NoExpiry_get s x.1 x.2 hwf hne)
    rw [show l.foldl (fun acc q => (get acc q.1 q.2).2) (get s x.1 x.2).2
      = runGets (get s x.1 x.2).2 l from rfl] at *
    refine ⟨?_, ?_⟩
    · rw [hrec.1, hstep.1]
      simp [List.length_cons]
      omega
    · rw [hrec.2, hstep.2]
      simp [List.length_cons]
      omega

end MemoryBank

/-- C3: `getStats` reports `hitRate = hits / totalOperations * 100` and
0 when `totalOperations` is 0; consequently, starting from zeroed
counters, after a sequence of `get` calls on a well-formed store whose
records carry no expiry instants (so every call is a plain hit or a
plain miss, with no hidden internal delete), producing `h` hits and `m`
misses, `getStats().hitRate = h / (h + m) * 100`, and 0 when both are
zero. -/
theorem C3_hit_rate {V : Type} (s s2 : MemoryBank V) (now now2 : Int)
    (l : List (Int × Key)) (hwf : WF s) (hne : NoExpiry s)
    (hz : s.stats = Stats.zero) :
    ((MemoryBank.getStats s2 now2).hitRate =
      (if 0 < s2.stats.totalOperations then
        ((s2.stats.hits : ℚ) / (s2.stats.totalOperations : ℚ)) * 100
      else 0)) ∧
    ((MemoryBank.getStats (runGets s l) now).hitRate =
      (if 0 < (runGets s l).stats.hits + (runGets s l).stats.misses then
        (((runGets s l).stats.hits : ℚ) /
          (((runGets s l).stats.hits : ℚ) + ((runGets s l).stats.misses : ℚ)))
          * 100
      else 0)) := by
  constructor
  · rfl
  · have hstats := MemoryBank.runGets_stats l s hwf hne
    have htot : (runGets s l).stats.totalOperations
        = (runGets s l).stats.hits + (runGets s l).stats.misses := by
      rw [hz] at hstats
      simp only [Stats.zero] at hstats
      omega
    show (if 0 < (runGets s l).stats.totalOperations then
        (((runGets s l).stats.hits : ℚ) /
          ((runGets s l).stats.totalOperations : ℚ)) * 100
      else 0) = _
    rw [htot]
    by_cases hpos : 0 < (runGets s l).stats.hits + (runGets s l).stats.misses
    · rw [if_pos hpos, if_pos hpos]
      push_cast
      ring
    · rw [if_neg hpos, if_neg hpos]

/-- Witness for C3 at a concrete input: a fresh default store, one miss
on key "a"; the hit rate is 0/1*100 = 0. -/
theorem C3_hit_rate_witness :
    (MemoryBank.getStats (runGets
      (MemoryBank.mkBank none none none none : MemoryBank Nat)
      [(5, "a")]) 9).hitRate =
      (if 0 < (runGets (MemoryBank.mkBank none none none none :
          MemoryBank Nat) [(5, "a")]).stats.hits + (runGets
          (MemoryBank.mkBank none none none none : MemoryBank Nat)
          [(5, "a")]).stats.misses then
        (((runGets (MemoryBank.mkBank none none none none :
            MemoryBank Nat) [(5, "a")]).stats.hits : ℚ) /
          (((runGets (MemoryBank.mkBank none none none none :
            MemoryBank Nat) [(5, "a")]).stats.hits : ℚ) +
           ((runGets (MemoryBank.mkBank none none none none :
            MemoryBank Nat) [(5, "a")]).stats.misses : ℚ))) * 100
      else 0) :=
  (C3_hit_rate (MemoryBank.mkBank none none none none : MemoryBank Nat)
    (MemoryBank.mkBank none none none none : MemoryBank Nat) 9 0
    [(5, "a")] ⟨by decide, by decide⟩
    (fun p hp => absurd hp (List.not_mem_nil p)) rfl).2

/-- C7: after every public operation (set, get, has, delete, clear,
keys, values, entries, setTTL, getTTL, getInfo, getStats, close) and
the background sweep, applied to a well-formed store, the set of keys
in the value map equals the set of keys in the metadata map, and each
key has exactly one metadata record (the key lists are duplicate-free).
Well-formedness holds for the freshly constructed store and is
preserved by every operation, so this covers all reachable states. -/
theorem C7_data_metadata_keys_eq {V : Type} (now : Int) (s : MemoryBank V)
    (op : Op V) (h : WF s) :
    keysOf (applyOp now s op).data = keysOf (applyOp now s op).metadata ∧
    (keysOf (applyOp now s op).metadata).Nodup := by
  have hw := WF_applyOp now s op h
  exact ⟨hw.2, hw.2 ▸ hw.1⟩

/-- Witness for C7 at a concrete input: a `set` on the fresh store. -/
theorem C7_data_metadata_keys_eq_witness :
    keysOf (applyOp 0 (MemoryBank.mkBank none none none none : MemoryBank Nat)
      (Op.set "a" 1 none)).data
      = keysOf (applyOp 0
        (MemoryBank.mkBank none none none none : MemoryBank Nat)
        (Op.set "a" 1 none)).metadata :=
  (C7_data_metadata_keys_eq 0
    (MemoryBank.mkBank none none none none : MemoryBank Nat)
    (Op.set "a" 1 none) ⟨by decide, rfl⟩).1

/-! Sweep machinery: exact characterization of `_cleanupExpired`. -/

namespace MemoryBank

variable {V : Type}

theorem delete_metadata_alGet_ne (s : MemoryBank V) (x k : Key) (h : k ≠ x) :
    alGet (delete s x).2.metadata k = alGet s.metadata k := by
  by_cases hx : alHas s.data x
  · rw [delete_of_has hx]
    exact alGet_alDelete_ne _ _ _ h
  · rw [delete_of_not_has (by simpa using hx)]

theorem delete_data_alHas_self (s : MemoryBank V) (x : Key) :
    alHas (delete s x).2.data x = false := by
  by_cases hx : alHas s.data x
  · rw [delete_of_has hx]
    exact alHas_alDelete_self _ _
  · rw [delete_of_not_has (by simpa using hx)]
    simpa using hx

theorem delete_data_alHas_false (s : MemoryBank V) (x k : Key)
    (h : alHas s.data k = false) : alHas (delete s x).2.data k = false := by
  by_cases he : k = x
  · subst he
    exact delete_data_alHas_self s k
  · rw [data_delete_alHas_ne s x k he]
    exact h

theorem cleanupLoop_alHas_false (l : List Key) (s : MemoryBank V) (k : Key)
    (h : alHas s.data k = false) : alHas (cleanupLoop s l).data k = false := by
  induction l generalizing s with
  | nil => exact h
  | cons x l ih =>
    rw [cleanupLoop, List.foldl_cons]
    exact ih (cleanupStep s x) (delete_data_alHas_false s x k h)

theorem cleanupLoop_alHas_mem (l : List Key) (s : MemoryBank V) (k : Key)
    (h : k ∈ l) : alHas (cleanupLoop s l).data k = false := by
  induction l generalizing s with
  | nil => simp at h
  | cons x l ih =>
    rw [cleanupLoop, List.foldl_cons]
    rcases List.mem_cons.mp h with he | hm
    · subst he
      exact cleanupLoop_alHas_false l _ k (delete_data_alHas_self s k)
    · exact ih (cleanupStep s x) hm

theorem cleanupLoop_metadata_alGet_not_mem (l : List Key) (s : MemoryBank V)
    (k : Key) (h : k ∉ l) :
    alGet (cleanupLoop s l).metadata k = alGet s.metadata k := by
  induction l generalizing s with
  | nil => rfl
  | cons x l ih =>
    rw [cleanupLoop, List.foldl_cons]
    have h1 := ih (cleanupStep s x) (fun hm => h (List.mem_cons_of_mem _ hm))
    rw [show l.foldl cleanupStep (cleanupStep s x)
      = cleanupLoop (cleanupStep s x) l from rfl, h1]
    exact delete_metadata_alGet_ne s x k
      (fun he => h (he ▸ List.mem_cons_self x l))

theorem cleanupLoop_evictions (l : List Key) (s : MemoryBank V) :
    (cleanupLoop s l).stats.evictions = s.stats.evictions + l.length := by
  induction l generalizing s with
  | nil => rfl
  | cons x l ih =>
    rw [cleanupLoop, List.foldl_cons]
    have h1 := ih (cleanupStep s x)
    rw [show l.foldl cleanupStep (cleanupStep s x)
      = cleanupLoop (cleanupStep s x) l from rfl, h1]
    have h2 : (cleanupStep s x).stats.evictions = s.stats.evictions + 1 := by
      by_cases hx : alHas s.data x
      · show (delete s x).2.stats.evictions + 1 = s.stats.evictions + 1
        rw [delete_of_has hx]
      · show (delete s x).2.stats.evictions + 1 = s.stats.evictions + 1
        rw [delete_of_not_has (by simpa using hx)]
    rw [h2, List.length_cons]
    omega

theorem WF_data_nodup_delete {s : MemoryBank V} (x : Key) (h : WF s) :
    (keysOf (delete s x).2.data).Nodup := (WF_delete x h).1

theorem cleanupLoop_size (l : List Key) (s : MemoryBank V)
    (hnodupl : l.Nodup) (hwf : WF s) (hpres : ∀ x ∈ l, alHas s.data x = true) :
    alSize (cleanupLoop s l).data + l.length = alSize s.data := by
  induction l generalizing s with
  | nil => rfl
  | cons x l ih =>
    rw [cleanupLoop, List.foldl_cons]
    have hx : alHas s.data x = true := hpres x (List.mem_cons_self _ _)
    have hWFstep : WF (cleanupStep s x) := WF_cleanupStep x hwf
    have hpres2 : ∀ y ∈ l, alHas (cleanupStep s x).data y = true := by
      intro y hy
      have hyx : y ≠ x := by
        rintro rfl
        exact (List.nodup_cons.mp hnodupl).1 hy
      show alHas (delete s x).2.data y = true
      rw [data_delete_alHas_ne s x y hyx]
      exact hpres y (List.mem_cons_of_mem _ hy)
    have h1 := ih (cleanupStep s x) (List.nodup_cons.mp hnodupl).2 hWFstep hpres2
    rw [show l.foldl cleanupStep (cleanupStep s x)
      = cleanupLoop (cleanupStep s x) l from rfl] at *
    have hsz : alSize (cleanupStep s x).data + 1 = alSize s.data := by
      show alSize (delete s x).2.data + 1 = alSize s.data
      rw [delete_of_has hx]
      show alSize (alDelete s.data x) + 1 = alSize s.data
      exact alSize_alDelete_of_has _ _ hwf.1 hx
    rw [List.length_cons]
    omega

theorem nodup_expiredKeysOf {s : MemoryBank V} (now : Int) (hwf : WF s) :
    (expiredKeysOf s now).Nodup := by
  have hnodupm : (keysOf s.metadata).Nodup := hwf.2 ▸ hwf.1
  have hsub : (expiredKeysOf s now).Sublist (keysOf s.metadata) := by
    rw [expiredKeysOf, keysOf, keysOf]
    exact (List.filter_sublist s.metadata).map Prod.fst
  exact List.Nodup.sublist hsub hnodupm

theorem pres_expiredKeysOf {s : MemoryBank V} (now : Int) (hwf : WF s) :
    ∀ x ∈ expiredKeysOf s now, alHas s.data x = true := by
  intro x hx
  rw [expiredKeysOf, keysOf, List.mem_map] at hx
  obtain ⟨p, hp, hpk⟩ := hx
  rw [List.mem_filter] at hp
  have hxm : x ∈ keysOf s.metadata := by
    rw [keysOf, List.mem_map]
    exact ⟨p, hp.1, hpk⟩
  rw [alHas_eq_mem, hwf.2]
  exact hxm

theorem mem_expiredKeysOf_iff {s : MemoryBank V} {k : Key} {now : Int}
    (hwf : WF s) :
    k ∈ expiredKeysOf s now ↔
      ∃ md, alGet s.metadata k = some md ∧ isExpired md now = true := by
  constructor
  · intro hmem
    rw [expiredKeysOf, keysOf, List.mem_map] at hmem
    obtain ⟨p, hp, hpk⟩ := hmem
    rw [List.mem_filter] at hp
    obtain ⟨pk, pmd⟩ := p
    simp only at hpk
    refine ⟨pmd, ?_, hp.2⟩
    rw [← hpk]
    exact alGet_of_mem_nodup (hwf.2 ▸ hwf.1) hp.1
  · rintro ⟨md, hget, hexp⟩
    rw [expiredKeysOf, keysOf, List.mem_map]
    refine ⟨(k, md), ?_, rfl⟩
    rw [List.mem_filter]
    exact ⟨alGet_mem hget, hexp⟩

theorem cleanupExpired_data_eq {s : MemoryBank V} {now : Int}
    (ht : 0 < s.options.ttl) :
    (cleanupExpired s now).data
      = (cleanupLoop s (expiredKeysOf s now)).data := by
  rw [cleanupExpired_of_ttl_pos ht]
  by_cases hlen : (expiredKeysOf s now).length > 0
  · rw [if_pos hlen]
    rfl
  · rw [if_neg hlen]

theorem cleanupExpired_metadata_eq {s : MemoryBank V} {now : Int}
    (ht : 0 < s.options.ttl) :
    (cleanupExpired s now).metadata
      = (cleanupLoop s (expiredKeysOf s now)).metadata := by
  rw [cleanupExpired_of_ttl_pos ht]
  by_cases hlen : (expiredKeysOf s now).length > 0
  · rw [if_pos hlen]
    rfl
  · rw [if_neg hlen]

theorem cleanupExpired_stats_eq {s : MemoryBank V} {now : Int}
    (ht : 0 < s.options.ttl) :
    (cleanupExpired s now).stats
      = (cleanupLoop s (expiredKeysOf s now)).stats := by
  rw [cleanupExpired_of_ttl_pos ht]
  by_cases hlen : (expiredKeysOf s now).length > 0
  · rw [if_pos hlen]
    rfl
  · rw [if_neg hlen]

theorem cleanupExpired_events_eq {s : MemoryBank V} {now : Int}
    (ht : 0 < s.options.ttl) (hlen : 0 < (expiredKeysOf s now).length) :
    (cleanupExpired s now).events
      = (cleanupLoop s (expiredKeysOf s now)).events
        ++ [Event.cleanup (expiredKeysOf s now).length] := by
  rw [cleanupExpired_of_ttl_pos ht, if_pos hlen]
  rfl

/-- Survivor characterization of one sweep pass. -/
theorem cleanupExpired_alHas {s : MemoryBank V} (now : Int) (k : Key)
    (ht : 0 < s.options.ttl) :
    alHas (cleanupExpired s now).data k
      = (alHas s.data k && !(decide (k ∈ expiredKeysOf s now))) := by
  rw [cleanupExpired_data_eq ht]
  by_cases hmem : k ∈ expiredKeysOf s now
  · rw [cleanupLoop_alHas_mem _ _ _ hmem]
    simp [hmem]
  · rw [cleanupLoop_alHas_not_mem _ _ _ hmem]
    simp [hmem]

end MemoryBank

theorem isExpired_false_iff {md : Metadata} {now : Int}
    (hok : expOk md = true) :
    MemoryBank.isExpired md now = false ↔
      ∀ e, md.expiresAt = some e → now ≤ e := by
  cases hexp : md.expiresAt with
  | none =>
    constructor
    · intro _ e he
      cases he
    · intro _
      simp [MemoryBank.isExpired, hexp]
  | some e =>
    have hepos : 0 < e := by
      simp only [expOk, hexp, decide_eq_true_eq] at hok
      exact hok
    constructor
    · intro h e2 he2
      cases Option.some.inj he2
      by_contra hlt
      push_neg at hlt
      have htrue : MemoryBank.isExpired md now = true := by
        simp only [MemoryBank.isExpired, hexp, Bool.and_eq_true, bne_iff_ne,
          decide_eq_true_eq]
        exact ⟨by omega, by omega⟩
      rw [htrue] at h
      cases h
    · intro h
      have hle : now ≤ e := h e rfl
      have hngt : ¬ (now > e) := by omega
      simp [MemoryBank.isExpired, hexp, hngt]

/-- C8: when the store-wide default TTL is positive, one sweep
invocation deletes exactly the entries whose `expiresAt` has passed at
the time of the scan, increments the eviction counter by exactly that
number, and the cleanup notification (emitted whenever anything was
removed) carries an `expiredCount` equal to exactly the number of keys
removed in that invocation. -/
theorem C8_sweep_exact_count {V : Type} (s : MemoryBank V) (now : Int)
    (hwf : WF s) (hpe : PosExp s) (ht : 0 < s.options.ttl) :
    (∀ k, alHas (MemoryBank.cleanupExpired s now).data k = true ↔
      (alHas s.data k = true ∧
        ∀ md e, alGet s.metadata k = some md → md.expiresAt = some e →
          now ≤ e)) ∧
    (MemoryBank.cleanupExpired s now).stats.evictions
      = s.stats.evictions + (MemoryBank.expiredKeysOf s now).length ∧
    alSize (MemoryBank.cleanupExpired s now).data
        + (MemoryBank.expiredKeysOf s now).length = alSize s.data ∧
    (0 < (MemoryBank.expiredKeysOf s now).length →
      (MemoryBank.cleanupExpired s now).events
        = (MemoryBank.cleanupLoop s (MemoryBank.expiredKeysOf s now)).events
          ++ [Event.cleanup (MemoryBank.expiredKeysOf s now).length]) := by
  refine ⟨?_, ?_, ?_, MemoryBank.cleanupExpired_events_eq ht⟩
  · intro k
    rw [MemoryBank.cleanupExpired_alHas now k ht]
    simp only [Bool.and_eq_true, Bool.not_eq_true', decide_eq_false_iff_not]
    constructor
    · rintro ⟨hk, hnot⟩
      refine ⟨hk, ?_⟩
      intro md e hget he
      have hok : expOk md = true := hpe (k, md) (alGet_mem hget)
      have hfalse : MemoryBank.isExpired md now = false := by
        by_contra htr
        rw [Bool.not_eq_false] at htr
        exact hnot ((MemoryBank.mem_expiredKeysOf_iff hwf).mpr ⟨md, hget, htr⟩)
      exact (isExpired_false_iff hok).mp hfalse e he
    · rintro ⟨hk, hlive⟩
      refine ⟨hk, ?_⟩
      intro hmem
      obtain ⟨md, hget, hexp⟩ := (MemoryBank.mem_expiredKeysOf_iff hwf).mp hmem
      have hok : expOk md = true := hpe (k, md) (alGet_mem hget)
      have hfalse : MemoryBank.isExpired md now = false :=
        (isExpired_false_iff hok).mpr (fun e he => hlive md e hget he)
      rw [hexp] at hfalse
      cases hfalse
  · rw [MemoryBank.cleanupExpired_stats_eq ht,
      MemoryBank.cleanupLoop_evictions]
  · rw [MemoryBank.cleanupExpired_data_eq ht]
    exact MemoryBank.cleanupLoop_size _ s
      (MemoryBank.nodup_expiredKeysOf now hwf) hwf
      (MemoryBank.pres_expiredKeysOf now hwf)

/-- Witness for C8 at a concrete input: default TTL 10, key "a" written
at 0, swept at 100 — the eviction counter grows by the one expired
key. -/
theorem C8_sweep_exact_count_witness :
    (MemoryBank.cleanupExpired (MemoryBank.set
      (MemoryBank.mkBank none (some 10) none none : MemoryBank Nat)
      0 "a" 1 none).2 100).stats.evictions
      = (MemoryBank.set (MemoryBank.mkBank none (some 10) none none :
          MemoryBank Nat) 0 "a" 1 none).2.stats.evictions
        + (MemoryBank.expiredKeysOf (MemoryBank.set
            (MemoryBank.mkBank none (some 10) none none : MemoryBank Nat)
            0 "a" 1 none).2 100).length :=
  (C8_sweep_exact_count (MemoryBank.set
      (MemoryBank.mkBank none (some 10) none none : MemoryBank Nat)
      0 "a" 1 none).2 100 ⟨by decide, by decide⟩
    (show ∀ p ∈ (MemoryBank.set
      (MemoryBank.mkBank none (some 10) none none : MemoryBank Nat)
      0 "a" 1 none).2.metadata, expOk p.2 = true from by decide)
    (by decide)).2.1

/-- C2 counterexample: with the store-wide default TTL at its default 0,
`keys()` performs no sweep at all, so a key written with a positive
per-call TTL whose `expiresAt` (100) has passed by `now = 200` still
appears in the listing — the claim's "regardless of the store-wide
default TTL setting" is false. -/
theorem C2_counterexample :
    (MemoryBank.keys (MemoryBank.set (MemoryBank.mkBank none none none none :
      MemoryBank Nat) 0 "a" 1 (some 100)).2 200).1 = ["a"] ∧
    alGet (MemoryBank.set (MemoryBank.mkBank none none none none :
      MemoryBank Nat) 0 "a" 1 (some 100)).2.metadata "a"
      = some (MemoryBank.freshMeta 0 100) ∧
    (MemoryBank.freshMeta 0 100).expiresAt = some 100 ∧
    ((100 : Int) < 200) := by
  decide

/-- C2 (amended): when the store-wide default TTL is positive, `keys`,
`values` and `entries` first run the full lazy-expiry sweep and their
results reflect only live entries: no key whose `expiresAt` has passed
survives in the swept store or appears in any of the three listings.
When the default TTL is 0 the sweep is skipped entirely and already
expired per-call-TTL entries can appear (see the counterexample). -/
theorem C2_listings_only_live {V : Type} (s : MemoryBank V) (now : Int)
    (hwf : WF s) (hpe : PosExp s) (ht : 0 < s.options.ttl) :
    (MemoryBank.keys s now).1 = keysOf (MemoryBank.cleanupExpired s now).data ∧
    (MemoryBank.values s now).1
      = (MemoryBank.cleanupExpired s now).data.map Prod.snd ∧
    (∀ p, p ∈ (MemoryBank.cleanupExpired s now).data →
      ∃ md, alGet (MemoryBank.cleanupExpired s now).metadata p.1 = some md ∧
        liveAt md now) ∧
    (∀ k md e, k ∈ (MemoryBank.keys s now).1 →
      alGet s.metadata k = some md → md.expiresAt = some e → now ≤ e) ∧
    (∀ t, t ∈ (MemoryBank.entries s now).1 → liveAt t.2.2 now) := by
  have hsurv : ∀ k, alHas (MemoryBank.cleanupExpired s now).data k = true →
      alHas s.data k = true ∧ k ∉ MemoryBank.expiredKeysOf s now := by
    intro k hk
    rw [MemoryBank.cleanupExpired_alHas now k ht] at hk
    simp only [Bool.and_eq_true, Bool.not_eq_true',
      decide_eq_false_iff_not] at hk
    exact hk
  have hmain : ∀ k, alHas (MemoryBank.cleanupExpired s now).data k = true →
      ∃ md, alGet (MemoryBank.cleanupExpired s now).metadata k = some md ∧
        alGet s.metadata k = some md ∧ liveAt md now := by
    intro k hk
    obtain ⟨hk1, hk2⟩ := hsurv k hk
    have hmm : alHas s.metadata k = true := by
      rw [← alHas_congr hwf.2]
      exact hk1
    cases hget : alGet s.metadata k with
    | none =>
      have hs := alGet_isSome_eq s.metadata k
      rw [hget, hmm] at hs
      exact absurd hs (by simp)
    | some md =>
      have hok : expOk md = true := hpe (k, md) (alGet_mem hget)
      have hfalse : MemoryBank.isExpired md now = false := by
        by_contra htr
        rw [Bool.not_eq_false] at htr
        exact hk2 ((MemoryBank.mem_expiredKeysOf_iff hwf).mpr ⟨md, hget, htr⟩)
      refine ⟨md, ?_, rfl, (isExpired_false_iff hok).mp hfalse⟩
      rw [MemoryBank.cleanupExpired_metadata_eq ht,
        MemoryBank.cleanupLoop_metadata_alGet_not_mem _ _ _ hk2]
      exact hget
  refine ⟨rfl, rfl, ?_, ?_, ?_⟩
  · intro p hp
    have hk : alHas (MemoryBank.cleanupExpired s now).data p.1 = true := by
      rw [alHas_eq_mem, keysOf, List.mem_map]
      exact ⟨p, hp, rfl⟩
    obtain ⟨md, h1, _, h3⟩ := hmain p.1 hk
    exact ⟨md, h1, h3⟩
  · intro k md e hkmem hget he
    have hk : alHas (MemoryBank.cleanupExpired s now).data k = true := by
      rw [alHas_eq_mem]
      exact hkmem
    obtain ⟨md2, _, hget2, hlive⟩ := hmain k hk
    rw [hget] at hget2
    cases Option.some.inj hget2
    exact hlive e he
  · intro t ht2
    rw [MemoryBank.entries_eq, List.mem_filterMap] at ht2
    obtain ⟨p, hp, hmap⟩ := ht2
    cases hget : alGet (MemoryBank.cleanupExpired s now).metadata p.1 with
    | none =>
      rw [hget] at hmap
      cases hmap
    | some md =>
      rw [hget] at hmap
      simp only [Option.map_some', Option.some.injEq] at hmap
      have hk : alHas (MemoryBank.cleanupExpired s now).data p.1 = true := by
        rw [alHas_eq_mem, keysOf, List.mem_map]
        exact ⟨p, hp, rfl⟩
      obtain ⟨md2, h1, _, h3⟩ := hmain p.1 hk
      rw [hget] at h1
      cases Option.some.inj h1
      rw [← hmap]
      exact h3

/-- Witness for C2 at a concrete input: default TTL 10, live key "b"
(written at 90 with TTL 1000) and expired key "a" (written at 0); the
swept listing at time 100 is exactly ["b"]. -/
theorem C2_listings_only_live_witness :
    (MemoryBank.keys (MemoryBank.set (MemoryBank.set
      (MemoryBank.mkBank none (some 10) none none : MemoryBank Nat)
      0 "a" 1 none).2 90 "b" 2 (some 1000)).2 100).1
      = keysOf (MemoryBank.cleanupExpired (MemoryBank.set (MemoryBank.set
        (MemoryBank.mkBank none (some 10) none none : MemoryBank Nat)
        0 "a" 1 none).2 90 "b" 2 (some 1000)).2 100).data :=
  (C2_listings_only_live (MemoryBank.set (MemoryBank.set
      (MemoryBank.mkBank none (some 10) none none : MemoryBank Nat)
      0 "a" 1 none).2 90 "b" 2 (some 1000)).2 100 ⟨by decide, by decide⟩
    (show ∀ p ∈ (MemoryBank.set (MemoryBank.set
      (MemoryBank.mkBank none (some 10) none none : MemoryBank Nat)
      0 "a" 1 none).2 90 "b" 2 (some 1000)).2.metadata, expOk p.2 = true
      from by decide)
    (by decide)).1

end MemBank
